import Mathlib

/-!
# Sumo Logic sink of heapster: tag extraction and export

A shallow embedding of `metrics/sinks/sumologic/driver.go` and
`metrics/sinks/sumologic/metric.go`.

* Go strings are lists of characters. Every separator the package splits,
  joins or replaces on is a single ASCII character, so splitting a UTF-8 byte
  string and splitting its list of code points agree.
* A Go `map[string]string` is an association list with pairwise distinct keys
  (`GoMap`). A `range` loop visits the entries in list order; Go leaves that
  order unspecified, so statements are made for every list and never depend on
  a particular order.
* Label maps handed to `ExportData` are reference values: they live in a
  `Heap` and the batch holds their addresses, so that writes through an alias
  would be visible.
* A run-time panic (index out of range) is the result `none`.
* Declarations of package `core` and of the standard library that the two
  files use but do not contain are parameters (`Core`, `Imports`, the
  rendering of a URL in `NewSumoLogicSink`). The HTTP exchange of one export
  is the parameter `HttpOutcome`.
* A `float32` is its bit pattern, and `Sprintf_f` computes what the verb `%f`
  prints for it by exact integer arithmetic; the statements about floating
  readings are made for imports whose rendering is that one.
-/

set_option linter.dupNamespace false

namespace Sumologic

/-! ## Strings -/

/-- A Go string. -/
abbrev Str := List Char

/-- The function `strings.Split(s, sep)` for a one-character separator: the
pieces of `s` between the occurrences of `sep`; never the empty slice. -/
def Split : Str → Char → List Str
  | [], _ => [[]]
  | c :: cs, sep =>
    if c = sep then [] :: Split cs sep
    else
      match Split cs sep with
      | [] => [[c]]
      | piece :: pieces => (c :: piece) :: pieces

/-- The function `strings.Join(elems, sep)`. -/
def Join : List Str → Str → Str
  | [], _ => []
  | [e], _ => e
  | e :: e2 :: es, sep => e ++ sep ++ Join (e2 :: es) sep

/-- The function `strings.Replace(s, old, new, -1)` for a one-character `old`:
every occurrence is replaced. -/
def Replace (s : Str) (old : Char) (new : Str) : Str :=
  s.flatMap (fun c => if c = old then new else [c])

/-- The rendering `fmt.Sprintf("%d", i)` of an integer: decimal digits, with a
leading minus sign for a negative number. -/
def Sprintf_d : Int → Str
  | Int.ofNat n => Nat.toDigits 10 n
  | Int.negSucc n => '-' :: Nat.toDigits 10 (n + 1)

/-- The number a string of decimal digits denotes, most significant digit
first. It states what the output of `Sprintf_d` reads as. -/
def decimalValue (s : Str) : Nat :=
  s.foldl (fun n c => 10 * n + (c.toNat - '0'.toNat)) 0

/-- The method `bytes.Buffer.WriteString`: append to the buffer. -/
def WriteString (buffer : Str) (s : Str) : Str := buffer ++ s

/-! ## Maps -/

/-- A Go `map[string]string`: entries with pairwise distinct keys. -/
abbrev GoMap := List (Str × Str)

/-- The comma-ok lookup `v, ok := m[k]`. -/
def GoMap.commaOk : GoMap → Str → Option Str
  | [], _ => none
  | (k', v) :: rest, k => if k' = k then some v else GoMap.commaOk rest k

/-- The index expression `m[k]`: the zero value `""` for a missing key. -/
def GoMap.index (m : GoMap) (k : Str) : Str := (m.commaOk k).getD []

/-- The assignment `m[k] = v`: replaces the entry of `k` or adds one. -/
def GoMap.assign : GoMap → Str → Str → GoMap
  | [], k, v => [(k, v)]
  | (k', v') :: rest, k, v =>
    if k' = k then (k, v) :: rest else (k', v') :: GoMap.assign rest k v

/-- The keys of a map. -/
def GoMap.domain (m : GoMap) : List Str := m.map Prod.fst

/-- The representation invariant of a map: no key occurs twice. -/
def GoMap.Valid (m : GoMap) : Prop := m.domain.Nodup

instance (m : GoMap) : Decidable m.Valid := inferInstanceAs (Decidable (List.Nodup _))

/-! ## Imported declarations -/

/-- A `core.LabelDescriptor`; only its `Key` is used. -/
structure LabelDescriptor where
  Key : Str

/-- A Go `float32`, by its IEEE-754 bit pattern. -/
structure Float32 where
  bits : Nat
deriving DecidableEq

/-- Modelled from the spec: the type `core.MetricValue` is declared outside the
two source files. A reading is integer- or floating-valued according to its
value kind, so it carries an integer value, a floating value and the kind. -/
structure MetricValue where
  IntValue : Int
  FloatValue : Float32
  ValueType : Int

/-- What `MetricValue.GetValue` returns: an `interface{}`, of which the sink
only tests whether it is `nil`. -/
inductive Interface where
  | nil
  | int64 (v : Int)
  | float32 (v : Float32)
deriving DecidableEq

/-- The declarations of package `core` that the sink refers to. Their values
are fixed outside the two source files, so they are parameters here. -/
structure Core where
  LabelMetricSetType : LabelDescriptor
  LabelHostname : LabelDescriptor
  LabelNamespaceName : LabelDescriptor
  LabelPodName : LabelDescriptor
  LabelContainerName : LabelDescriptor
  LabelLabels : LabelDescriptor
  MetricSetTypePodContainer : Str
  MetricSetTypeSystemContainer : Str
  MetricSetTypePod : Str
  MetricSetTypeNamespace : Str
  MetricSetTypeNode : Str
  MetricSetTypeCluster : Str
  ValueInt64 : Int
  ValueFloat : Int
  GetValue : MetricValue → Interface

/-- The case values of each `switch` are pairwise distinct, as the values that
package `core` declares are; for constant cases the Go compiler rejects a
`switch` with a duplicate. -/
def Core.DistinctCases (core : Core) : Prop :=
  [core.MetricSetTypePodContainer, core.MetricSetTypeSystemContainer, core.MetricSetTypePod,
    core.MetricSetTypeNamespace, core.MetricSetTypeNode, core.MetricSetTypeCluster].Nodup ∧
  core.ValueInt64 ≠ core.ValueFloat

instance (core : Core) : Decidable core.DistinctCases :=
  inferInstanceAs (Decidable (_ ∧ _))

/-- Everything the package imports: package `core`, and the rendering
`fmt.Sprintf("%f", x)` of a `float32`. -/
structure Imports where
  core : Core
  Sprintf_f : Float32 → Str

/-! ## The verb `%f` on a `float32` -/

/-- The sign bit of a `float32`. -/
def Float32.sign (x : Float32) : Bool := decide (x.bits / 2 ^ 31 % 2 = 1)

/-- The exponent field of a `float32`; 255 marks an infinity or a NaN. -/
def Float32.exponent (x : Float32) : Nat := x.bits / 2 ^ 23 % 256

/-- The fraction field of a `float32`. -/
def Float32.fraction (x : Float32) : Nat := x.bits % 2 ^ 23

/-- The absolute value of a finite `float32`, as a numerator and a
denominator: the significand times a power of two. -/
def Float32.magnitude (x : Float32) : Nat × Nat :=
  let significand := if x.exponent = 0 then x.fraction else 2 ^ 23 + x.fraction
  let e := if x.exponent = 0 then 1 else x.exponent
  if 150 ≤ e then (significand * 2 ^ (e - 150), 1) else (significand, 2 ^ (150 - e))

/-- The integer nearest to `num / den`, the even one of two that are equally
near. -/
def roundHalfEven (num den : Nat) : Nat :=
  let q := num / den
  let r := num % den
  if den < 2 * r ∨ (2 * r = den ∧ q % 2 = 1) then q + 1 else q

/-- The six decimal digits of a number below one million. -/
def sixDigits (k : Nat) : Str :=
  [5, 4, 3, 2, 1, 0].map fun i => Nat.digitChar (k / 10 ^ i % 10)

/-- The rendering `fmt.Sprintf("%f", x)` of a `float32`: `NaN`, `+Inf` or `-Inf`
for a value that is not finite, and otherwise the value rounded to six
decimals, ties to even, as a minus sign when the sign bit is set, the integer
part, a point and six digits. -/
def Sprintf_f (x : Float32) : Str :=
  if x.exponent = 255 then
    if x.fraction ≠ 0 then "NaN".toList
    else if x.sign then "-Inf".toList
    else "+Inf".toList
  else
    let n := roundHalfEven (x.magnitude.1 * 10 ^ 6) x.magnitude.2
    (if x.sign then "-".toList else []) ++ Nat.toDigits 10 (n / 10 ^ 6) ++ ".".toList ++
      sixDigits (n % 10 ^ 6)

/-- A fixed-point decimal string: an optional minus sign, one or more digits, a
point, and one or more digits. -/
def FixedPoint (s : Str) : Prop :=
  ∃ (negative : Bool) (whole frac : Str),
    s = (if negative then "-".toList else []) ++ whole ++ ".".toList ++ frac ∧
    whole ≠ [] ∧ frac ≠ [] ∧ (∀ c ∈ whole, c.isDigit = true) ∧ (∀ c ∈ frac, c.isDigit = true)

/-! ## metric.go -/

/-- The struct `Carbon2Metric`. -/
structure Carbon2Metric where
  IntrinsicTags : GoMap
  MetaTags : GoMap
  Value : Str
  Timestamp : Int
deriving DecidableEq

/-- The method `Carbon2Metric.String`. -/
def Carbon2Metric.String (metric : Carbon2Metric) : Str :=
  let buffer : Str := []
  let buffer := metric.IntrinsicTags.foldl
    (fun buffer kv => WriteString buffer (kv.1 ++ "=".toList ++ kv.2 ++ " ".toList)) buffer
  let buffer := WriteString buffer " ".toList
  let buffer := metric.MetaTags.foldl
    (fun buffer kv => WriteString buffer (kv.1 ++ "=".toList ++ kv.2 ++ " ".toList)) buffer
  let buffer := WriteString buffer (metric.Value ++ " ".toList)
  let buffer := WriteString buffer (Sprintf_d metric.Timestamp)
  buffer

/-! ## driver.go: the tag extractor -/

/-- The struct `Sink` (without its lock). -/
structure Sink where
  url : Str
  dimensions : GoMap
  metadata : GoMap

/-- The struct `Metric`. Its methods only read `labels`, so the map is held by
value. -/
structure Metric where
  name : Str
  value : MetricValue
  labels : GoMap
  timestamp : Int

/-- The method `Metric.IntrinsicTags`. -/
def Metric.IntrinsicTags (core : Core) (m : Metric) : Option GoMap :=
  let intrinsicTags : GoMap := []
  let path : Option Str :=
    match m.labels.commaOk "resourceId".toList with
    | some resourceId =>
      match Split m.name '/' with
      | [] => none
      | sect :: parts => some (Join ([sect, resourceId] ++ parts) ".".toList)
    | none => some m.name
  match path with
  | none => none
  | some metricPath =>
    let metricPath := Replace metricPath '/' ".".toList
    let intrinsicTags := intrinsicTags.assign "metric".toList metricPath
    match m.labels.commaOk core.LabelMetricSetType.Key with
    | some t =>
      if t = core.MetricSetTypePodContainer then
        let intrinsicTags :=
          intrinsicTags.assign "node".toList (m.labels.index core.LabelHostname.Key)
        let intrinsicTags :=
          intrinsicTags.assign "namespace".toList (m.labels.index core.LabelNamespaceName.Key)
        let intrinsicTags :=
          intrinsicTags.assign "pod".toList (m.labels.index core.LabelPodName.Key)
        let intrinsicTags :=
          intrinsicTags.assign "container".toList (m.labels.index core.LabelContainerName.Key)
        some intrinsicTags
      else if t = core.MetricSetTypeSystemContainer then
        let intrinsicTags :=
          intrinsicTags.assign "node".toList (m.labels.index core.LabelHostname.Key)
        let intrinsicTags :=
          intrinsicTags.assign "sys-containers".toList (m.labels.index core.LabelContainerName.Key)
        some intrinsicTags
      else if t = core.MetricSetTypePod then
        let intrinsicTags :=
          intrinsicTags.assign "node".toList (m.labels.index core.LabelHostname.Key)
        let intrinsicTags :=
          intrinsicTags.assign "namespace".toList (m.labels.index core.LabelNamespaceName.Key)
        let intrinsicTags :=
          intrinsicTags.assign "pod".toList (m.labels.index core.LabelPodName.Key)
        some intrinsicTags
      else if t = core.MetricSetTypeNamespace then
        let intrinsicTags :=
          intrinsicTags.assign "namespace".toList (m.labels.index core.LabelNamespaceName.Key)
        some intrinsicTags
      else if t = core.MetricSetTypeNode then
        let intrinsicTags :=
          intrinsicTags.assign "node".toList (m.labels.index core.LabelHostname.Key)
        some intrinsicTags
      else if t = core.MetricSetTypeCluster then
        some intrinsicTags
      else
        some intrinsicTags
    | none => some intrinsicTags

/-- The body of the loop over the entries of the `labels` blob in
`Metric.MetaTags`. -/
def Metric.MetaTags.step (metaTags : GoMap) (s : Str) : GoMap :=
  match Split s ':' with
  | [key, value] => if value ≠ [] then metaTags.assign key value else metaTags
  | _ => metaTags

/-- The method `Metric.MetaTags`. -/
def Metric.MetaTags (core : Core) (m : Metric) : GoMap :=
  let metaTags : GoMap := []
  let labels := Split (m.labels.index core.LabelLabels.Key) ','
  let metaTags := labels.foldl Metric.MetaTags.step metaTags
  match m.labels.commaOk core.LabelMetricSetType.Key with
  | some t =>
    if t = core.MetricSetTypePodContainer then
      metaTags.assign "type".toList "container".toList
    else if t = core.MetricSetTypeSystemContainer then
      metaTags.assign "type".toList "sys-container".toList
    else if t = core.MetricSetTypePod then
      metaTags.assign "type".toList "pod".toList
    else if t = core.MetricSetTypeNamespace then
      metaTags.assign "type".toList "namespace".toList
    else if t = core.MetricSetTypeNode then
      metaTags.assign "type".toList "node".toList
    else if t = core.MetricSetTypeCluster then
      metaTags.assign "type".toList "cluster".toList
    else
      metaTags
  | none => metaTags

/-- The method `Metric.Value`. -/
def Metric.Value (imp : Imports) (m : Metric) : Str :=
  if m.value.ValueType = imp.core.ValueInt64 then Sprintf_d m.value.IntValue
  else if m.value.ValueType = imp.core.ValueFloat then imp.Sprintf_f m.value.FloatValue
  else []

/-- The loop `for key, value := range src { dst[key] = value }`, as in
`Metric.Metric` with the sink's dimensions for `src`. -/
def assignAll (src : GoMap) (dst : GoMap) : GoMap :=
  src.foldl (fun dst kv => dst.assign kv.1 kv.2) dst

/-- The method `Metric.Metric`. -/
def Metric.Metric (imp : Imports) (m : Metric) (sink : Sink) : Option Carbon2Metric :=
  match m.IntrinsicTags imp.core with
  | none => none
  | some intrinsicTags =>
    let intrinsicTags := assignAll sink.dimensions intrinsicTags
    let metaTags := m.MetaTags imp.core
    let metaTags := assignAll sink.dimensions metaTags
    some
      { IntrinsicTags := intrinsicTags
        MetaTags := metaTags
        Value := m.Value imp
        Timestamp := m.timestamp }

/-! ## driver.go: the export driver -/

/-- The address of a map object. -/
abbrev Addr := Nat

/-- The map objects of the running program, by address. -/
abbrev Heap := List GoMap

/-- The map object at an address. -/
def Heap.deref (heap : Heap) (a : Addr) : GoMap := heap.getD a []

/-- The expression `make(map[string]string)`: a new, empty map object. -/
def Heap.make (heap : Heap) : Heap × Addr := (heap ++ [[]], heap.length)

/-- The assignment `labels[k] = v` through the reference `a`. -/
def Heap.store (heap : Heap) (a : Addr) (k v : Str) : Heap :=
  heap.set a ((heap.deref a).assign k v)

/-- Every map object satisfies the representation invariant. -/
def Heap.Valid (heap : Heap) : Prop := ∀ m ∈ heap, GoMap.Valid m

instance (heap : Heap) : Decidable heap.Valid :=
  inferInstanceAs (Decidable (∀ m ∈ heap, GoMap.Valid m))

/-- A `time.Time`, by what `Unix()` returns for it. -/
structure Time where
  unix : Int

/-- The method `time.Time.Unix`. -/
def Time.Unix (t : Time) : Int := t.unix

/-- Modelled from the spec: the type `core.LabeledMetric` is declared outside
the two source files. A labeled metric has a name, a value and its own label
overlay, a map reference. -/
structure LabeledMetric where
  Name : Str
  Labels : Addr
  MetricValue : MetricValue

/-- Modelled from the spec: the type `core.MetricSet` is declared outside the
two source files. A metric set has a label mapping (a map reference), a simple
name-to-value mapping and a collection of labeled metrics. -/
structure MetricSet where
  MetricValues : List (Str × MetricValue)
  Labels : Addr
  LabeledMetrics : List LabeledMetric

/-- Modelled from the spec: the type `core.DataBatch` is declared outside the
two source files. A batch has a shared timestamp and a collection of metric
sets, keyed by name. -/
structure DataBatch where
  Timestamp : Time
  MetricSets : List (Str × MetricSet)

/-- Every map reference of the batch points to a map object of the heap. -/
def DataBatch.Allocated (dataBatch : DataBatch) (heap : Heap) : Prop :=
  ∀ e ∈ dataBatch.MetricSets,
    e.2.Labels < heap.length ∧ ∀ metric ∈ e.2.LabeledMetrics, metric.Labels < heap.length

instance (dataBatch : DataBatch) (heap : Heap) : Decidable (dataBatch.Allocated heap) :=
  inferInstanceAs
    (Decidable (∀ e ∈ dataBatch.MetricSets, _ ∧ ∀ metric ∈ e.2.LabeledMetrics, _))

/-- The loop `for k, v := range src { labels[k] = v }` of `ExportData`, where
`labels` is the reference `a`. -/
def copyLabels (heap : Heap) (a : Addr) (src : GoMap) : Heap :=
  src.foldl (fun heap kv => heap.store a kv.1 kv.2) heap

/-- The loop over `metricSet.MetricValues` in `ExportData`. -/
def rangeMetricValues (imp : Imports) (sink : Sink) (heap : Heap) (dataBatch : DataBatch)
    (metricSet : MetricSet) : List (Str × MetricValue) → List Carbon2Metric →
    Option (List Carbon2Metric)
  | [], metrics => some metrics
  | (metricName, metricValue) :: rest, metrics =>
    let m : Metric :=
      { name := metricName
        value := metricValue
        labels := heap.deref metricSet.Labels
        timestamp := dataBatch.Timestamp.Unix }
    match m.Metric imp sink with
    | none => none
    | some record =>
      rangeMetricValues imp sink heap dataBatch metricSet rest (metrics ++ [record])

/-- The loop over `metricSet.LabeledMetrics` in `ExportData`. -/
def rangeLabeledMetrics (imp : Imports) (sink : Sink) (dataBatch : DataBatch)
    (metricSet : MetricSet) : List LabeledMetric → Heap → List Carbon2Metric →
    Option (Heap × List Carbon2Metric)
  | [], heap, metrics => some (heap, metrics)
  | metric :: rest, heap, metrics =>
    if imp.core.GetValue metric.MetricValue ≠ Interface.nil then
      let (heap, labels) := heap.make
      let heap := copyLabels heap labels (heap.deref metricSet.Labels)
      let heap := copyLabels heap labels (heap.deref metric.Labels)
      let m : Metric :=
        { name := metric.Name
          value := metric.MetricValue
          labels := heap.deref labels
          timestamp := dataBatch.Timestamp.Unix }
      match m.Metric imp sink with
      | none => none
      | some record =>
        rangeLabeledMetrics imp sink dataBatch metricSet rest heap (metrics ++ [record])
    else
      rangeLabeledMetrics imp sink dataBatch metricSet rest heap metrics

/-- The loop over `dataBatch.MetricSets` in `ExportData`. -/
def rangeMetricSets (imp : Imports) (sink : Sink) (dataBatch : DataBatch) :
    List (Str × MetricSet) → Heap → List Carbon2Metric → Option (Heap × List Carbon2Metric)
  | [], heap, metrics => some (heap, metrics)
  | (_, metricSet) :: rest, heap, metrics =>
    match rangeMetricValues imp sink heap dataBatch metricSet metricSet.MetricValues metrics with
    | none => none
    | some metrics =>
      match rangeLabeledMetrics imp sink dataBatch metricSet metricSet.LabeledMetrics heap
          metrics with
      | none => none
      | some (heap, metrics) => rangeMetricSets imp sink dataBatch rest heap metrics

/-- The constant `Carbon2ContentType`. -/
def Carbon2ContentType : Str := "application/vnd.sumologic.carbon2".toList

/-- An HTTP request as `sendToSumoLogic` sets it up. -/
structure Request where
  method : Str
  url : Str
  body : Str
  Close : Bool
  ContentType : Str
deriving DecidableEq

/-- How the HTTP exchange of one call goes: `http.NewRequest` fails,
`client.Do` fails, or a response arrives. -/
inductive HttpOutcome where
  | newRequestError
  | doError
  | response (StatusCode : Int)
deriving DecidableEq

/-- What one call of `sendToSumoLogic` does: the requests it hands to
`client.Do`, whether `glog.Errorf` was called, and whether `glog.Fatalf`
terminated the process. -/
structure Sent where
  requests : List Request
  errorLogged : Bool
  fatal : Bool
deriving DecidableEq

/-- The payload loop of `sendToSumoLogic`. -/
def payload (metrics : List Carbon2Metric) : Str :=
  metrics.foldl (fun buffer metric => WriteString buffer (metric.String ++ "\n".toList)) []

/-- The function `sendToSumoLogic`. -/
def sendToSumoLogic (url : Str) (metrics : List Carbon2Metric) (outcome : HttpOutcome) : Sent :=
  let buffer := payload metrics
  let req : Request :=
    { method := "POST".toList
      url := url
      body := buffer
      Close := true
      ContentType := Carbon2ContentType }
  match outcome with
  | HttpOutcome.newRequestError => { requests := [], errorLogged := false, fatal := true }
  | HttpOutcome.doError => { requests := [req], errorLogged := false, fatal := true }
  | HttpOutcome.response StatusCode =>
    if StatusCode ≠ 200 then { requests := [req], errorLogged := true, fatal := false }
    else { requests := [req], errorLogged := false, fatal := false }

/-- What one call of `ExportData` leaves behind: the heap, the records it
accumulated, and the transmission. -/
structure Exported where
  heap : Heap
  metrics : List Carbon2Metric
  sent : Sent

/-- The method `Sink.ExportData` (without the lock). -/
def Sink.ExportData (imp : Imports) (sink : Sink) (heap : Heap) (dataBatch : DataBatch)
    (outcome : HttpOutcome) : Option Exported :=
  match rangeMetricSets imp sink dataBatch dataBatch.MetricSets heap [] with
  | none => none
  | some (heap, metrics) =>
    some { heap := heap, metrics := metrics, sent := sendToSumoLogic sink.url metrics outcome }

/-! ## driver.go: the constructor -/

/-- The type `url.Values`: the values of each query parameter. -/
abbrev Values := List (Str × List Str)

/-- The method `url.Values.Get`: the first value of the parameter, or `""` when
there is none. -/
def Values.Get : Values → Str → Str
  | [], _ => []
  | (k, vs) :: rest, key =>
    if k = key then
      match vs with
      | [] => []
      | v :: _ => v
    else Values.Get rest key

/-- A `url.URL`, with the parsed query that its method `Query()` returns. -/
structure URL where
  Scheme : Str
  Host : Str
  Path : Str
  Query : Values

/-- The loop `for _, value := range strings.Split(param, ",")` of
`NewSumoLogicSink`, which occurs once for the dimensions and once for the
metadata: each entry is split on `=` and its second part assigned to its
first. An entry without `=` has no second part, and the index expression
panics. -/
def rangeParam : List Str → GoMap → Option GoMap
  | [], tags => some tags
  | value :: rest, tags =>
    match Split value '=' with
    | key :: val :: _ => rangeParam rest (tags.assign key val)
    | _ => none

/-- The function `NewSumoLogicSink`. Its error result is `nil` on every
return, so only the sink is kept; `URL_String` is the method `url.URL.String`
of the standard library. -/
def NewSumoLogicSink (URL_String : URL → Str) (uri : URL) : Option Sink :=
  let dimensionsParam := uri.Query.Get "dimensions".toList
  let dimensions : GoMap := []
  match (if dimensionsParam ≠ [] then rangeParam (Split dimensionsParam ',') dimensions
      else some dimensions) with
  | none => none
  | some dimensions =>
    let metadataParam := uri.Query.Get "metadata".toList
    let metadata : GoMap := []
    match (if dimensionsParam ≠ [] then rangeParam (Split metadataParam ',') metadata
        else some metadata) with
    | none => none
    | some metadata =>
      let httpSourceUrl : URL :=
        { Scheme := uri.Scheme, Host := uri.Host, Path := uri.Path, Query := [] }
      some { url := URL_String httpSourceUrl, dimensions := dimensions, metadata := metadata }

/-! ## The export, as the specification words it -/

/-- A map overlaid by another: a new map that gets the entries of `base` and
then those of `over`, so that `over` wins on a shared key. -/
def overlay (base over : GoMap) : GoMap := assignAll over (assignAll base [])

/-- The readings of the simple metrics of a metric set: name and value of the
metric, the labels of the metric set, the timestamp of the batch. -/
def simpleReadings (heap : Heap) (dataBatch : DataBatch) (metricSet : MetricSet) : List Metric :=
  metricSet.MetricValues.map fun e =>
    { name := e.1
      value := e.2
      labels := heap.deref metricSet.Labels
      timestamp := dataBatch.Timestamp.Unix }

/-- The readings of the labeled metrics of a metric set whose value is present:
the labels are those of the metric set overlaid by the metric's own. -/
def labeledReadings (imp : Imports) (heap : Heap) (dataBatch : DataBatch)
    (metricSet : MetricSet) : List Metric :=
  (metricSet.LabeledMetrics.filter fun metric =>
      decide (imp.core.GetValue metric.MetricValue ≠ Interface.nil)).map fun metric =>
    { name := metric.Name
      value := metric.MetricValue
      labels := overlay (heap.deref metricSet.Labels) (heap.deref metric.Labels)
      timestamp := dataBatch.Timestamp.Unix }

/-- The readings of a batch: for every metric set, those of its simple metrics
and then those of its labeled metrics. -/
def readings (imp : Imports) (heap : Heap) (dataBatch : DataBatch) : List Metric :=
  dataBatch.MetricSets.flatMap fun e =>
    simpleReadings heap dataBatch e.2 ++ labeledReadings imp heap dataBatch e.2

/-! ## A sample environment -/

/-- A sample of package `core`, with the label keys and type names of a
Kubernetes metrics pipeline. -/
def sampleCore : Core :=
  { LabelMetricSetType := ⟨"type".toList⟩
    LabelHostname := ⟨"hostname".toList⟩
    LabelNamespaceName := ⟨"namespace_name".toList⟩
    LabelPodName := ⟨"pod_name".toList⟩
    LabelContainerName := ⟨"container_name".toList⟩
    LabelLabels := ⟨"labels".toList⟩
    MetricSetTypePodContainer := "pod_container".toList
    MetricSetTypeSystemContainer := "sys_container".toList
    MetricSetTypePod := "pod".toList
    MetricSetTypeNamespace := "ns".toList
    MetricSetTypeNode := "node".toList
    MetricSetTypeCluster := "cluster".toList
    ValueInt64 := 0
    ValueFloat := 1
    GetValue := fun v =>
      if v.ValueType = 0 then Interface.int64 v.IntValue
      else if v.ValueType = 1 then Interface.float32 v.FloatValue
      else Interface.nil }

/-- A sample of the imports: the sample of package `core` and the rendering
`Sprintf_f`. -/
def sampleImports : Imports :=
  { core := sampleCore
    Sprintf_f := Sprintf_f }

/-- A sample integer-valued reading value. -/
def sampleInt (i : Int) : MetricValue :=
  { IntValue := i, FloatValue := ⟨0⟩, ValueType := 0 }

/-- A sample reading. -/
def sampleMetric (name : String) (labels : List (String × String)) : Metric :=
  { name := name.toList
    value := sampleInt 5
    labels := labels.map (fun kv => (kv.1.toList, kv.2.toList))
    timestamp := 100 }


/-- A sample sink with one dimension. -/
def sampleSink : Sink :=
  { url := "http://collector/receiver".toList
    dimensions := [("cluster".toList, "c0".toList)]
    metadata := [] }

/-- A sample heap: at address 0 the labels of a metric set, at address 1 the
labels of a labeled metric that redefine `hostname`. -/
def sampleHeap : Heap :=
  [[("type".toList, "node".toList), ("hostname".toList, "h-set".toList)],
   [("hostname".toList, "h-own".toList)]]

/-- A sample batch: one metric set with one simple metric and three labeled
metrics, one of which has no value. -/
def sampleBatch : DataBatch :=
  { Timestamp := ⟨100⟩
    MetricSets :=
      [("node:h".toList,
        { MetricValues := [("uptime".toList, sampleInt 7)]
          Labels := 0
          LabeledMetrics :=
            [{ Name := "disk".toList, Labels := 1, MetricValue := sampleInt 3 },
             { Name := "void".toList, Labels := 1, MetricValue := ⟨0, ⟨0⟩, 9⟩ },
             { Name := "net".toList, Labels := 0, MetricValue := sampleInt 4 }] })] }

/-- A sample rendering of a URL without query: scheme, `://`, host and path. -/
def sampleURLString (u : URL) : Str := u.Scheme ++ "://".toList ++ u.Host ++ u.Path

/-- A sample URI with the given query parameters. -/
def sampleURI (query : List (String × String)) : URL :=
  { Scheme := "https".toList
    Host := "collector".toList
    Path := "/receiver".toList
    Query := query.map fun kv => (kv.1.toList, [kv.2.toList]) }

/-! ## Lemmas on strings -/

theorem Split_ne_nil (s : Str) (sep : Char) : Split s sep ≠ [] := by
  induction s with
  | nil => simp [Split]
  | cons c cs ih =>
    unfold Split
    split
    · simp
    · split <;> simp

theorem Split_of_not_mem (s : Str) (sep : Char) (h : sep ∉ s) : Split s sep = [s] := by
  induction s with
  | nil => rfl
  | cons c cs ih =>
    have hc : c ≠ sep := fun e => h (by simp [e])
    have hcs : sep ∉ cs := fun e => h (by simp [e])
    simp [Split, hc, ih hcs]

theorem Replace_nil (old : Char) (new : Str) : Replace [] old new = [] := rfl

theorem Replace_cons (c : Char) (s : Str) (old : Char) (new : Str) :
    Replace (c :: s) old new = (if c = old then new else [c]) ++ Replace s old new := by
  simp [Replace]

theorem Replace_append (a b : Str) (old : Char) (new : Str) :
    Replace (a ++ b) old new = Replace a old new ++ Replace b old new := by
  simp [Replace]

theorem Replace_of_not_mem (s : Str) (old : Char) (new : Str) (h : old ∉ s) :
    Replace s old new = s := by
  induction s with
  | nil => rfl
  | cons c cs ih =>
    have hc : c ≠ old := fun e => h (by simp [e])
    have hcs : old ∉ cs := fun e => h (by simp [e])
    simp [Replace_cons, hc, ih hcs]

/-! ## Lemmas on maps -/

theorem GoMap.commaOk_assign (m : GoMap) (k v k' : Str) :
    (m.assign k v).commaOk k' = if k = k' then some v else m.commaOk k' := by
  induction m with
  | nil => simp [GoMap.assign, GoMap.commaOk]
  | cons e rest ih =>
    obtain ⟨k0, v0⟩ := e
    by_cases h0 : k0 = k
    · subst h0
      by_cases h1 : k0 = k' <;> simp [GoMap.assign, GoMap.commaOk, h1]
    · by_cases h1 : k0 = k'
      · subst h1
        have : ¬ k = k0 := fun e => h0 e.symm
        simp [GoMap.assign, GoMap.commaOk, h0, this]
      · simp [GoMap.assign, GoMap.commaOk, h0, h1, ih]

theorem GoMap.mem_domain_assign (m : GoMap) (k v k' : Str) :
    k' ∈ (m.assign k v).domain ↔ k' = k ∨ k' ∈ m.domain := by
  induction m with
  | nil => simp [GoMap.assign, GoMap.domain]
  | cons e rest ih =>
    obtain ⟨k0, v0⟩ := e
    by_cases h0 : k0 = k
    · subst h0
      simp [GoMap.assign, GoMap.domain]
    · have ih2 : k' ∈ List.map Prod.fst (GoMap.assign rest k v) ↔
          k' = k ∨ k' ∈ List.map Prod.fst rest := ih
      simp only [GoMap.assign, h0, if_false, GoMap.domain, List.map_cons, List.mem_cons, ih2]
      tauto

theorem GoMap.mem_domain_iff (m : GoMap) (k : Str) :
    k ∈ m.domain ↔ ∃ v, m.commaOk k = some v := by
  induction m with
  | nil => simp [GoMap.domain, GoMap.commaOk]
  | cons e rest ih =>
    obtain ⟨k0, v0⟩ := e
    have ih2 : k ∈ List.map Prod.fst rest ↔ ∃ v, GoMap.commaOk rest k = some v := ih
    by_cases h0 : k0 = k
    · subst h0
      simp [GoMap.domain, GoMap.commaOk]
    · have h1 : ¬ k = k0 := fun e => h0 e.symm
      simp [GoMap.domain, GoMap.commaOk, h0, h1, ih2]

theorem GoMap.valid_assign (m : GoMap) (k v : Str) (h : m.Valid) : (m.assign k v).Valid := by
  induction m with
  | nil => simp [GoMap.assign, GoMap.Valid, GoMap.domain]
  | cons e rest ih =>
    obtain ⟨k0, v0⟩ := e
    have hv : k0 ∉ GoMap.domain rest ∧ GoMap.Valid rest := by
      simpa [GoMap.Valid, GoMap.domain] using h
    by_cases h0 : k0 = k
    · subst h0
      simpa [GoMap.assign, GoMap.Valid, GoMap.domain] using h
    · have hnot : k0 ∉ GoMap.domain (GoMap.assign rest k v) := by
        rw [GoMap.mem_domain_assign]
        tauto
      have := ih hv.2
      simp only [GoMap.assign, h0, if_false, GoMap.Valid, GoMap.domain, List.map_cons,
        List.nodup_cons]
      exact ⟨hnot, this⟩

theorem GoMap.valid_nil : GoMap.Valid [] := by simp [GoMap.Valid, GoMap.domain]


/-! ## The shape of the intrinsic tags -/

/-- The method `Metric.IntrinsicTags` never panics, and its result is the entry
of `metric` followed by the identity tags of the first `switch` case that
matches. -/
theorem IntrinsicTags_shape (core : Core) (m : Metric) :
    ∃ p extra, m.IntrinsicTags core = some (("metric".toList, p) :: extra) ∧
      ((∀ R, m.labels.commaOk "resourceId".toList = some R →
          ∃ sect parts, Split m.name '/' = sect :: parts ∧
            p = Replace (Join (sect :: R :: parts) ".".toList) '/' ".".toList) ∧
       (m.labels.commaOk "resourceId".toList = none → p = Replace m.name '/' ".".toList)) ∧
      ((∀ t, m.labels.commaOk core.LabelMetricSetType.Key = some t →
          (t = core.MetricSetTypePodContainer →
            extra = [("node".toList, m.labels.index core.LabelHostname.Key),
              ("namespace".toList, m.labels.index core.LabelNamespaceName.Key),
              ("pod".toList, m.labels.index core.LabelPodName.Key),
              ("container".toList, m.labels.index core.LabelContainerName.Key)]) ∧
          (t ≠ core.MetricSetTypePodContainer → t = core.MetricSetTypeSystemContainer →
            extra = [("node".toList, m.labels.index core.LabelHostname.Key),
              ("sys-containers".toList, m.labels.index core.LabelContainerName.Key)]) ∧
          (t ≠ core.MetricSetTypePodContainer → t ≠ core.MetricSetTypeSystemContainer →
            t = core.MetricSetTypePod →
            extra = [("node".toList, m.labels.index core.LabelHostname.Key),
              ("namespace".toList, m.labels.index core.LabelNamespaceName.Key),
              ("pod".toList, m.labels.index core.LabelPodName.Key)]) ∧
          (t ≠ core.MetricSetTypePodContainer → t ≠ core.MetricSetTypeSystemContainer →
            t ≠ core.MetricSetTypePod → t = core.MetricSetTypeNamespace →
            extra = [("namespace".toList, m.labels.index core.LabelNamespaceName.Key)]) ∧
          (t ≠ core.MetricSetTypePodContainer → t ≠ core.MetricSetTypeSystemContainer →
            t ≠ core.MetricSetTypePod → t ≠ core.MetricSetTypeNamespace →
            t = core.MetricSetTypeNode →
            extra = [("node".toList, m.labels.index core.LabelHostname.Key)]) ∧
          (t ≠ core.MetricSetTypePodContainer → t ≠ core.MetricSetTypeSystemContainer →
            t ≠ core.MetricSetTypePod → t ≠ core.MetricSetTypeNamespace →
            t ≠ core.MetricSetTypeNode → extra = [])) ∧
       (m.labels.commaOk core.LabelMetricSetType.Key = none → extra = [])) := by
  have hpath : ∃ p, (match m.labels.commaOk "resourceId".toList with
      | some resourceId =>
        match Split m.name '/' with
        | [] => none
        | sect :: parts => some (Join ([sect, resourceId] ++ parts) ".".toList)
      | none => some m.name) = some p ∧
      ((∀ R, m.labels.commaOk "resourceId".toList = some R →
          ∃ sect parts, Split m.name '/' = sect :: parts ∧
            Replace p '/' ".".toList
              = Replace (Join (sect :: R :: parts) ".".toList) '/' ".".toList) ∧
       (m.labels.commaOk "resourceId".toList = none →
          Replace p '/' ".".toList = Replace m.name '/' ".".toList)) := by
    cases hR : m.labels.commaOk "resourceId".toList with
    | none => exact ⟨m.name, rfl, by simp, fun _ => rfl⟩
    | some R =>
      cases hS : Split m.name '/' with
      | nil => exact absurd hS (Split_ne_nil _ _)
      | cons sect parts =>
        refine ⟨Join ([sect, R] ++ parts) ".".toList, rfl, ?_, by simp⟩
        intro R' hR'
        cases hR'
        exact ⟨sect, parts, rfl, rfl⟩
  obtain ⟨p, hp, hp1, hp2⟩ := hpath
  unfold Metric.IntrinsicTags
  simp only [hp]
  cases ht : m.labels.commaOk core.LabelMetricSetType.Key with
  | none =>
    exact ⟨_, [], rfl, ⟨hp1, hp2⟩, by simp, fun _ => rfl⟩
  | some t =>
    simp only []
    split_ifs with h1 h2 h3 h4 h5 h6
    · exact ⟨_, [_, _, _, _], rfl, ⟨hp1, hp2⟩,
        by intro t' ht'; cases ht'; refine ⟨?_, ?_, ?_, ?_, ?_, ?_⟩ <;> intros <;>
          first | rfl | contradiction,
        by simp⟩
    · exact ⟨_, [_, _], rfl, ⟨hp1, hp2⟩,
        by intro t' ht'; cases ht'; refine ⟨?_, ?_, ?_, ?_, ?_, ?_⟩ <;> intros <;>
          first | rfl | contradiction,
        by simp⟩
    · exact ⟨_, [_, _, _], rfl, ⟨hp1, hp2⟩,
        by intro t' ht'; cases ht'; refine ⟨?_, ?_, ?_, ?_, ?_, ?_⟩ <;> intros <;>
          first | rfl | contradiction,
        by simp⟩
    · exact ⟨_, [_], rfl, ⟨hp1, hp2⟩,
        by intro t' ht'; cases ht'; refine ⟨?_, ?_, ?_, ?_, ?_, ?_⟩ <;> intros <;>
          first | rfl | contradiction,
        by simp⟩
    · exact ⟨_, [_], rfl, ⟨hp1, hp2⟩,
        by intro t' ht'; cases ht'; refine ⟨?_, ?_, ?_, ?_, ?_, ?_⟩ <;> intros <;>
          first | rfl | contradiction,
        by simp⟩
    · exact ⟨_, [], rfl, ⟨hp1, hp2⟩,
        by intro t' ht'; cases ht'; refine ⟨?_, ?_, ?_, ?_, ?_, ?_⟩ <;> intros <;>
          first | rfl | contradiction,
        by simp⟩
    · exact ⟨_, [], rfl, ⟨hp1, hp2⟩,
        by intro t' ht'; cases ht'; refine ⟨?_, ?_, ?_, ?_, ?_, ?_⟩ <;> intros <;>
          first | rfl | contradiction,
        by simp⟩


/-! ## The `metric` tag -/

/-- C1: when the labels hold `resourceId` with value `R`, `Metric.IntrinsicTags`
returns and maps `metric` to the first segment of the name, `R` and the
remaining segments joined with `.`, every `/` left in that path replaced by
`.`. For the name `a/b/c` this is `a.R.b.c`, and for a name without `/` it is
`name.R`, both with the `/` of `R` replaced, hence literally so when `R` has
none. -/
theorem IntrinsicTags_metric_of_resourceId (core : Core) (m : Metric) (R : Str)
    (hR : m.labels.commaOk "resourceId".toList = some R) :
    ∃ tags sect parts, m.IntrinsicTags core = some tags ∧ Split m.name '/' = sect :: parts ∧
      tags.commaOk "metric".toList =
        some (Replace (Join (sect :: R :: parts) ".".toList) '/' ".".toList) ∧
      (m.name = "a/b/c".toList →
        tags.commaOk "metric".toList =
          some (Replace ("a.".toList ++ R ++ ".b.c".toList) '/' ".".toList)) ∧
      ('/' ∉ m.name →
        tags.commaOk "metric".toList =
          some (Replace (m.name ++ ".".toList ++ R) '/' ".".toList)) ∧
      ('/' ∉ R →
        (m.name = "a/b/c".toList →
          tags.commaOk "metric".toList = some ("a.".toList ++ R ++ ".b.c".toList)) ∧
        ('/' ∉ m.name → tags.commaOk "metric".toList = some (m.name ++ ".".toList ++ R))) := by
  obtain ⟨p, extra, htags, ⟨hp, -⟩, -⟩ := IntrinsicTags_shape core m
  obtain ⟨sect, parts, hS, hpe⟩ := hp R hR
  have hm : GoMap.commaOk (("metric".toList, p) :: extra) "metric".toList = some p := by
    simp [GoMap.commaOk]
  have habc : m.name = "a/b/c".toList →
      p = Replace ("a.".toList ++ R ++ ".b.c".toList) '/' ".".toList := by
    intro hn
    have hS2 : Split m.name '/' = ["a".toList, "b".toList, "c".toList] := by rw [hn]; rfl
    rw [hS] at hS2
    injection hS2 with e1 e2
    subst e1 e2
    rw [hpe]
    simp [Join]
  have hno : '/' ∉ m.name → p = Replace (m.name ++ ".".toList ++ R) '/' ".".toList := by
    intro hn
    have hS2 := Split_of_not_mem m.name '/' hn
    rw [hS] at hS2
    injection hS2 with e1 e2
    subst e1 e2
    rw [hpe]
    simp [Join]
  refine ⟨_, sect, parts, htags, hS, ?_, ?_, ?_, ?_⟩
  · rw [hm, hpe]
  · intro hn
    rw [hm, habc hn]
  · intro hn
    rw [hm, hno hn]
  · intro hRs
    constructor
    · intro hn
      rw [hm, habc hn, Replace_append, Replace_append, Replace_of_not_mem R '/' _ hRs]
      rfl
    · intro hn
      rw [hm, hno hn, Replace_append, Replace_append, Replace_of_not_mem R '/' _ hRs,
        Replace_of_not_mem m.name '/' _ hn]
      rfl

/-- C1, at the reading named `a/b/c` with `resourceId=R`: the `metric` tag is
`a.R.b.c`. -/
theorem IntrinsicTags_metric_of_resourceId_witness :
    ∃ tags, (sampleMetric "a/b/c" [("resourceId", "R")]).IntrinsicTags sampleCore = some tags ∧
      tags.commaOk "metric".toList = some "a.R.b.c".toList := by
  obtain ⟨tags, _, _, h1, _, _, _, _, h2⟩ :=
    IntrinsicTags_metric_of_resourceId sampleCore (sampleMetric "a/b/c" [("resourceId", "R")])
      "R".toList (by decide)
  exact ⟨tags, h1, (h2 (by decide)).1 rfl⟩

/-- C2: when the labels hold no `resourceId`, `Metric.IntrinsicTags` returns and
maps `metric` to the name with every `/` replaced by `.`; a name without `/`
is mapped to unchanged. -/
theorem IntrinsicTags_metric_of_no_resourceId (core : Core) (m : Metric)
    (hR : m.labels.commaOk "resourceId".toList = none) :
    ∃ tags, m.IntrinsicTags core = some tags ∧
      tags.commaOk "metric".toList = some (Replace m.name '/' ".".toList) ∧
      ('/' ∉ m.name → tags.commaOk "metric".toList = some m.name) := by
  obtain ⟨p, extra, htags, ⟨-, hp⟩, -⟩ := IntrinsicTags_shape core m
  have hm : GoMap.commaOk (("metric".toList, p) :: extra) "metric".toList = some p := by
    simp [GoMap.commaOk]
  refine ⟨_, htags, ?_, ?_⟩
  · rw [hm, hp hR]
  · intro hn
    rw [hm, hp hR, Replace_of_not_mem _ _ _ hn]

/-- C2, at the readings named `cpu/usage` and `uptime` without `resourceId`:
the `metric` tags are `cpu.usage` and `uptime`. -/
theorem IntrinsicTags_metric_of_no_resourceId_witness :
    (∃ tags, (sampleMetric "cpu/usage" [("type", "pod")]).IntrinsicTags sampleCore = some tags ∧
      tags.commaOk "metric".toList = some "cpu.usage".toList) ∧
    (∃ tags, (sampleMetric "uptime" []).IntrinsicTags sampleCore = some tags ∧
      tags.commaOk "metric".toList = some "uptime".toList) := by
  obtain ⟨tags, h1, h2, _⟩ :=
    IntrinsicTags_metric_of_no_resourceId sampleCore (sampleMetric "cpu/usage" [("type", "pod")])
      (by decide)
  obtain ⟨tags', h1', _, h3'⟩ :=
    IntrinsicTags_metric_of_no_resourceId sampleCore (sampleMetric "uptime" []) (by decide)
  exact ⟨⟨tags, h1, h2⟩, ⟨tags', h1', h3' (by decide)⟩⟩


theorem Core.DistinctCases.ne (core : Core) (hd : core.DistinctCases) :
    core.MetricSetTypePodContainer ≠ core.MetricSetTypeSystemContainer ∧
    core.MetricSetTypePodContainer ≠ core.MetricSetTypePod ∧
    core.MetricSetTypePodContainer ≠ core.MetricSetTypeNamespace ∧
    core.MetricSetTypePodContainer ≠ core.MetricSetTypeNode ∧
    core.MetricSetTypePodContainer ≠ core.MetricSetTypeCluster ∧
    core.MetricSetTypeSystemContainer ≠ core.MetricSetTypePod ∧
    core.MetricSetTypeSystemContainer ≠ core.MetricSetTypeNamespace ∧
    core.MetricSetTypeSystemContainer ≠ core.MetricSetTypeNode ∧
    core.MetricSetTypeSystemContainer ≠ core.MetricSetTypeCluster ∧
    core.MetricSetTypePod ≠ core.MetricSetTypeNamespace ∧
    core.MetricSetTypePod ≠ core.MetricSetTypeNode ∧
    core.MetricSetTypePod ≠ core.MetricSetTypeCluster ∧
    core.MetricSetTypeNamespace ≠ core.MetricSetTypeNode ∧
    core.MetricSetTypeNamespace ≠ core.MetricSetTypeCluster ∧
    core.MetricSetTypeNode ≠ core.MetricSetTypeCluster := by
  have h := hd.1
  simp only [List.nodup_cons, List.mem_cons, List.mem_singleton, not_or, List.not_mem_nil,
    not_false_eq_true, List.nodup_nil, and_true] at h
  tauto


/-! ## The identity tags -/

/-- C3: `Metric.IntrinsicTags` returns a map whose keys, apart from `metric`,
are those of the table row of the resource type (pod-container: node,
namespace, pod, container; system-container: node, sys-containers; pod: node,
namespace, pod; namespace: namespace; node: node; cluster: none), each tag
carrying the entity label it is read from; with the resource-type label absent
or not one of the six values the only key is `metric`. -/
theorem IntrinsicTags_identity_table (core : Core) (hd : core.DistinctCases) (m : Metric) :
    ∃ tags, m.IntrinsicTags core = some tags ∧ tags.Valid ∧
      (m.labels.commaOk core.LabelMetricSetType.Key = some core.MetricSetTypePodContainer →
        (∀ k, k ∈ tags.domain ↔ k = "metric".toList ∨
          k ∈ ["node".toList, "namespace".toList, "pod".toList, "container".toList]) ∧
        tags.commaOk "node".toList = some (m.labels.index core.LabelHostname.Key) ∧
        tags.commaOk "namespace".toList = some (m.labels.index core.LabelNamespaceName.Key) ∧
        tags.commaOk "pod".toList = some (m.labels.index core.LabelPodName.Key) ∧
        tags.commaOk "container".toList = some (m.labels.index core.LabelContainerName.Key)) ∧
      (m.labels.commaOk core.LabelMetricSetType.Key = some core.MetricSetTypeSystemContainer →
        (∀ k, k ∈ tags.domain ↔ k = "metric".toList ∨
          k ∈ ["node".toList, "sys-containers".toList]) ∧
        tags.commaOk "node".toList = some (m.labels.index core.LabelHostname.Key) ∧
        tags.commaOk "sys-containers".toList =
          some (m.labels.index core.LabelContainerName.Key)) ∧
      (m.labels.commaOk core.LabelMetricSetType.Key = some core.MetricSetTypePod →
        (∀ k, k ∈ tags.domain ↔ k = "metric".toList ∨
          k ∈ ["node".toList, "namespace".toList, "pod".toList]) ∧
        tags.commaOk "node".toList = some (m.labels.index core.LabelHostname.Key) ∧
        tags.commaOk "namespace".toList = some (m.labels.index core.LabelNamespaceName.Key) ∧
        tags.commaOk "pod".toList = some (m.labels.index core.LabelPodName.Key)) ∧
      (m.labels.commaOk core.LabelMetricSetType.Key = some core.MetricSetTypeNamespace →
        (∀ k, k ∈ tags.domain ↔ k = "metric".toList ∨ k ∈ ["namespace".toList]) ∧
        tags.commaOk "namespace".toList = some (m.labels.index core.LabelNamespaceName.Key)) ∧
      (m.labels.commaOk core.LabelMetricSetType.Key = some core.MetricSetTypeNode →
        (∀ k, k ∈ tags.domain ↔ k = "metric".toList ∨ k ∈ ["node".toList]) ∧
        tags.commaOk "node".toList = some (m.labels.index core.LabelHostname.Key)) ∧
      (m.labels.commaOk core.LabelMetricSetType.Key = some core.MetricSetTypeCluster →
        ∀ k, k ∈ tags.domain ↔ k = "metric".toList ∨ k ∈ ([] : List Str)) ∧
      ((∀ t, m.labels.commaOk core.LabelMetricSetType.Key = some t →
          t ∉ [core.MetricSetTypePodContainer, core.MetricSetTypeSystemContainer,
            core.MetricSetTypePod, core.MetricSetTypeNamespace, core.MetricSetTypeNode,
            core.MetricSetTypeCluster]) →
        ∀ k, k ∈ tags.domain ↔ k = "metric".toList) := by
  obtain ⟨p, extra, htags, -, hsw, hnone⟩ := IntrinsicTags_shape core m
  obtain ⟨n1, n2, n3, n4, n5, n6, n7, n8, n9, n10, n11, n12, n13, n14, n15⟩ :=
    Core.DistinctCases.ne core hd
  have hvalid : GoMap.Valid (("metric".toList, p) :: extra) := by
    cases ht : m.labels.commaOk core.LabelMetricSetType.Key with
    | none => rw [hnone ht]; simp [GoMap.Valid, GoMap.domain]
    | some t =>
      obtain ⟨c1, c2, c3, c4, c5, c6⟩ := hsw t ht
      by_cases e1 : t = core.MetricSetTypePodContainer
      · rw [c1 e1]; simp [GoMap.Valid, GoMap.domain]
      by_cases e2 : t = core.MetricSetTypeSystemContainer
      · rw [c2 e1 e2]; simp [GoMap.Valid, GoMap.domain]
      by_cases e3 : t = core.MetricSetTypePod
      · rw [c3 e1 e2 e3]; simp [GoMap.Valid, GoMap.domain]
      by_cases e4 : t = core.MetricSetTypeNamespace
      · rw [c4 e1 e2 e3 e4]; simp [GoMap.Valid, GoMap.domain]
      by_cases e5 : t = core.MetricSetTypeNode
      · rw [c5 e1 e2 e3 e4 e5]; simp [GoMap.Valid, GoMap.domain]
      · rw [c6 e1 e2 e3 e4 e5]; simp [GoMap.Valid, GoMap.domain]
  refine ⟨_, htags, hvalid, ?_, ?_, ?_, ?_, ?_, ?_, ?_⟩
  · intro ht
    rw [(hsw _ ht).1 rfl]
    simp [GoMap.domain, GoMap.commaOk]
  · intro ht
    rw [(hsw _ ht).2.1 n1.symm rfl]
    simp [GoMap.domain, GoMap.commaOk]
  · intro ht
    rw [(hsw _ ht).2.2.1 n2.symm n6.symm rfl]
    simp [GoMap.domain, GoMap.commaOk]
  · intro ht
    rw [(hsw _ ht).2.2.2.1 n3.symm n7.symm n10.symm rfl]
    simp [GoMap.domain, GoMap.commaOk]
  · intro ht
    rw [(hsw _ ht).2.2.2.2.1 n4.symm n8.symm n11.symm n13.symm rfl]
    simp [GoMap.domain, GoMap.commaOk]
  · intro ht
    rw [(hsw _ ht).2.2.2.2.2 n5.symm n9.symm n12.symm n14.symm n15.symm]
    simp [GoMap.domain]
  · intro hother
    cases ht : m.labels.commaOk core.LabelMetricSetType.Key with
    | none => rw [hnone ht]; simp [GoMap.domain]
    | some t =>
      have hn := hother t ht
      simp only [List.mem_cons, List.mem_singleton, not_or, List.not_mem_nil,
        not_false_eq_true, and_true] at hn
      rw [(hsw t ht).2.2.2.2.2 hn.1 hn.2.1 hn.2.2.1 hn.2.2.2.1 hn.2.2.2.2.1]
      simp [GoMap.domain]

/-- C3, at a pod-container reading and at a reading of unknown type. -/
theorem IntrinsicTags_identity_table_witness :
    (∃ tags, (sampleMetric "cpu" [("type", "pod_container"), ("hostname", "h1"),
        ("namespace_name", "ns1"), ("pod_name", "p1"),
        ("container_name", "c1")]).IntrinsicTags sampleCore = some tags ∧
      tags.domain = ["metric".toList, "node".toList, "namespace".toList, "pod".toList,
        "container".toList] ∧
      tags.commaOk "container".toList = some "c1".toList) ∧
    (∃ tags, (sampleMetric "cpu" [("type", "other")]).IntrinsicTags sampleCore = some tags ∧
      ∀ k, k ∈ tags.domain ↔ k = "metric".toList) := by
  obtain ⟨tags, h1, _, h2, _⟩ :=
    IntrinsicTags_identity_table sampleCore (by decide)
      (sampleMetric "cpu" [("type", "pod_container"), ("hostname", "h1"),
        ("namespace_name", "ns1"), ("pod_name", "p1"), ("container_name", "c1")])
  obtain ⟨tags', h1', _, _, _, _, _, _, _, h3'⟩ :=
    IntrinsicTags_identity_table sampleCore (by decide) (sampleMetric "cpu" [("type", "other")])
  refine ⟨⟨tags, h1, ?_, (h2 (by decide)).2.2.2.2⟩, ⟨tags', h1', h3' ?_⟩⟩
  · have e : some tags = some [("metric".toList, "cpu".toList), ("node".toList, "h1".toList),
        ("namespace".toList, "ns1".toList), ("pod".toList, "p1".toList),
        ("container".toList, "c1".toList)] := h1.symm.trans (by decide)
    cases e
    decide
  · intro t ht
    have e : t = "other".toList := by
      have : some "other".toList = some t := Eq.trans (by decide) ht
      cases this
      rfl
    subst e
    decide


/-! ## The metadata tags -/

/-- One round of the blob loop either assigns the pair the entry splits into, or
leaves the tags alone. -/
theorem MetaTags.step_cases (metaTags : GoMap) (s : Str) :
    (∃ key value, Split s ':' = [key, value] ∧ value ≠ [] ∧
        Metric.MetaTags.step metaTags s = metaTags.assign key value) ∨
    ((∀ key value, Split s ':' = [key, value] → value = []) ∧
        Metric.MetaTags.step metaTags s = metaTags) := by
  unfold Metric.MetaTags.step
  split
  · rename_i key value heq
    by_cases hv : value = []
    · right
      refine ⟨?_, by simp [hv]⟩
      intro key' value' h'
      rw [heq] at h'
      simp only [List.cons.injEq, and_true] at h'
      rw [← h'.2]
      exact hv
    · left
      exact ⟨key, value, heq, hv, by simp [hv]⟩
  · rename_i hne
    right
    refine ⟨?_, rfl⟩
    intro key value h
    exact absurd h (hne key value)

/-- The lookup of a key after one round of the blob loop. -/
theorem MetaTags.step_commaOk (metaTags : GoMap) (s k v : Str) :
    (Metric.MetaTags.step metaTags s).commaOk k = some v ↔
      (Split s ':' = [k, v] ∧ v ≠ []) ∨
      (metaTags.commaOk k = some v ∧ ∀ v', Split s ':' = [k, v'] → v' = []) := by
  rcases MetaTags.step_cases metaTags s with ⟨key, value, hs, hv, he⟩ | ⟨hno, he⟩
  · rw [he, GoMap.commaOk_assign]
    by_cases hk : key = k
    · subst hk
      simp only [if_true, hs, List.cons.injEq, true_and, and_true, Option.some.injEq]
      constructor
      · intro e
        subst e
        exact Or.inl ⟨rfl, hv⟩
      · rintro (⟨e, -⟩ | ⟨-, h⟩)
        · exact e
        · exact absurd (h value rfl) hv
    · simp only [hk, if_false, hs, List.cons.injEq, and_true, false_and, false_or]
      constructor
      · intro h
        exact ⟨h, fun v' h' => absurd h' id⟩
      · intro h
        exact h.1
  · rw [he]
    constructor
    · intro h
      exact Or.inr ⟨h, fun v' h' => hno k v' h'⟩
    · rintro (⟨h, hv⟩ | ⟨h, -⟩)
      · exact absurd (hno k v h) hv
      · exact h

/-- The lookup of a key after the blob loop: the value of the last entry that
reads as a pair with that key and a non-empty value, or else the initial one. -/
theorem MetaTags.fold_commaOk (k : Str) (entries : List Str) :
    ∀ (init : GoMap) (v : Str),
      (entries.foldl Metric.MetaTags.step init).commaOk k = some v ↔
        (∃ pre s post, entries = pre ++ s :: post ∧ Split s ':' = [k, v] ∧ v ≠ [] ∧
          ∀ s' ∈ post, ∀ v', Split s' ':' = [k, v'] → v' = []) ∨
        (init.commaOk k = some v ∧
          ∀ s' ∈ entries, ∀ v', Split s' ':' = [k, v'] → v' = []) := by
  induction entries with
  | nil =>
    intro init v
    simp
  | cons s rest ih =>
    intro init v
    rw [List.foldl_cons, ih, MetaTags.step_commaOk]
    constructor
    · rintro (⟨pre, s0, post, e, h1, h2, h3⟩ | ⟨(⟨h1, h2⟩ | ⟨h1, h2⟩), h3⟩)
      · exact Or.inl ⟨s :: pre, s0, post, by rw [e]; rfl, h1, h2, h3⟩
      · exact Or.inl ⟨[], s, rest, rfl, h1, h2, h3⟩
      · refine Or.inr ⟨h1, ?_⟩
        intro s' hs'
        rcases List.mem_cons.mp hs' with e | hmem
        · subst e
          exact h2
        · exact h3 s' hmem
    · rintro (⟨pre, s0, post, e, h1, h2, h3⟩ | ⟨h1, h2⟩)
      · cases pre with
        | nil =>
          simp only [List.nil_append, List.cons.injEq] at e
          obtain ⟨e1, e2⟩ := e
          subst e1 e2
          exact Or.inr ⟨Or.inl ⟨h1, h2⟩, h3⟩
        | cons a pre' =>
          simp only [List.cons_append, List.cons.injEq] at e
          exact Or.inl ⟨pre', s0, post, e.2, h1, h2, h3⟩
      · exact Or.inr ⟨Or.inr ⟨h1, h2 s (List.mem_cons_self _ _)⟩,
          fun s' hs' => h2 s' (List.mem_cons_of_mem _ hs')⟩


/-- The method `Metric.MetaTags` returns the tags of the blob loop, with `type`
assigned by the first `switch` case that matches. -/
theorem MetaTags_shape (core : Core) (m : Metric) :
    (∀ t, m.labels.commaOk core.LabelMetricSetType.Key = some t →
      (t = core.MetricSetTypePodContainer →
        m.MetaTags core =
          ((Split (m.labels.index core.LabelLabels.Key) ',').foldl Metric.MetaTags.step []).assign
            "type".toList "container".toList) ∧
      (t ≠ core.MetricSetTypePodContainer → t = core.MetricSetTypeSystemContainer →
        m.MetaTags core =
          ((Split (m.labels.index core.LabelLabels.Key) ',').foldl Metric.MetaTags.step []).assign
            "type".toList "sys-container".toList) ∧
      (t ≠ core.MetricSetTypePodContainer → t ≠ core.MetricSetTypeSystemContainer →
        t = core.MetricSetTypePod →
        m.MetaTags core =
          ((Split (m.labels.index core.LabelLabels.Key) ',').foldl Metric.MetaTags.step []).assign
            "type".toList "pod".toList) ∧
      (t ≠ core.MetricSetTypePodContainer → t ≠ core.MetricSetTypeSystemContainer →
        t ≠ core.MetricSetTypePod → t = core.MetricSetTypeNamespace →
        m.MetaTags core =
          ((Split (m.labels.index core.LabelLabels.Key) ',').foldl Metric.MetaTags.step []).assign
            "type".toList "namespace".toList) ∧
      (t ≠ core.MetricSetTypePodContainer → t ≠ core.MetricSetTypeSystemContainer →
        t ≠ core.MetricSetTypePod → t ≠ core.MetricSetTypeNamespace →
        t = core.MetricSetTypeNode →
        m.MetaTags core =
          ((Split (m.labels.index core.LabelLabels.Key) ',').foldl Metric.MetaTags.step []).assign
            "type".toList "node".toList) ∧
      (t ≠ core.MetricSetTypePodContainer → t ≠ core.MetricSetTypeSystemContainer →
        t ≠ core.MetricSetTypePod → t ≠ core.MetricSetTypeNamespace →
        t ≠ core.MetricSetTypeNode → t = core.MetricSetTypeCluster →
        m.MetaTags core =
          ((Split (m.labels.index core.LabelLabels.Key) ',').foldl Metric.MetaTags.step []).assign
            "type".toList "cluster".toList) ∧
      (t ≠ core.MetricSetTypePodContainer → t ≠ core.MetricSetTypeSystemContainer →
        t ≠ core.MetricSetTypePod → t ≠ core.MetricSetTypeNamespace →
        t ≠ core.MetricSetTypeNode → t ≠ core.MetricSetTypeCluster →
        m.MetaTags core =
          (Split (m.labels.index core.LabelLabels.Key) ',').foldl Metric.MetaTags.step [])) ∧
    (m.labels.commaOk core.LabelMetricSetType.Key = none →
      m.MetaTags core =
        (Split (m.labels.index core.LabelLabels.Key) ',').foldl Metric.MetaTags.step []) := by
  unfold Metric.MetaTags
  cases ht : m.labels.commaOk core.LabelMetricSetType.Key with
  | none => simp
  | some t =>
    refine ⟨?_, by simp⟩
    intro t' ht'
    cases ht'
    simp only []
    split_ifs <;> refine ⟨?_, ?_, ?_, ?_, ?_, ?_, ?_⟩ <;> intros <;> first | rfl | contradiction

/-- Outside the key `type`, the tags of `Metric.MetaTags` are those of the blob
loop. -/
theorem MetaTags_commaOk_of_ne_type (core : Core) (m : Metric) (k : Str)
    (hk : k ≠ "type".toList) :
    (m.MetaTags core).commaOk k =
      ((Split (m.labels.index core.LabelLabels.Key) ',').foldl Metric.MetaTags.step []).commaOk
        k := by
  have hk' : ¬ "type".toList = k := fun e => hk e.symm
  obtain ⟨hsw, hnone⟩ := MetaTags_shape core m
  cases ht : m.labels.commaOk core.LabelMetricSetType.Key with
  | none => rw [hnone ht]
  | some t =>
    obtain ⟨c1, c2, c3, c4, c5, c6, c7⟩ := hsw t ht
    by_cases e1 : t = core.MetricSetTypePodContainer
    · rw [c1 e1, GoMap.commaOk_assign, if_neg hk']
    by_cases e2 : t = core.MetricSetTypeSystemContainer
    · rw [c2 e1 e2, GoMap.commaOk_assign, if_neg hk']
    by_cases e3 : t = core.MetricSetTypePod
    · rw [c3 e1 e2 e3, GoMap.commaOk_assign, if_neg hk']
    by_cases e4 : t = core.MetricSetTypeNamespace
    · rw [c4 e1 e2 e3 e4, GoMap.commaOk_assign, if_neg hk']
    by_cases e5 : t = core.MetricSetTypeNode
    · rw [c5 e1 e2 e3 e4 e5, GoMap.commaOk_assign, if_neg hk']
    by_cases e6 : t = core.MetricSetTypeCluster
    · rw [c6 e1 e2 e3 e4 e5 e6, GoMap.commaOk_assign, if_neg hk']
    · rw [c7 e1 e2 e3 e4 e5 e6]

/-- The blob loop ends with a value for a key that had one before or that some
entry reads as a pair with a non-empty value. -/
theorem MetaTags.fold_isSome (k : Str) (entries : List Str) :
    ∀ init : GoMap,
      ((∃ w, init.commaOk k = some w) ∨
        ∃ s ∈ entries, ∃ v, Split s ':' = [k, v] ∧ v ≠ []) →
      ∃ w, (entries.foldl Metric.MetaTags.step init).commaOk k = some w := by
  induction entries with
  | nil =>
    intro init h
    rcases h with h | ⟨s, hs, -⟩
    · exact h
    · cases hs
  | cons s rest ih =>
    intro init h
    rw [List.foldl_cons]
    apply ih
    by_cases hm : ∃ v, Split s ':' = [k, v] ∧ v ≠ []
    · obtain ⟨v, hv⟩ := hm
      exact Or.inl ⟨v, (MetaTags.step_commaOk init s k v).mpr (Or.inl hv)⟩
    · have hno : ∀ v', Split s ':' = [k, v'] → v' = [] := by
        intro v' h'
        by_contra hne
        exact hm ⟨v', h', hne⟩
      rcases h with ⟨w, hw⟩ | ⟨s0, hs0, v, hv⟩
      · exact Or.inl ⟨w, (MetaTags.step_commaOk init s k w).mpr (Or.inr ⟨hw, hno⟩)⟩
      · rcases List.mem_cons.mp hs0 with e | hmem
        · subst e
          exact absurd ⟨v, hv⟩ hm
        · exact Or.inr ⟨s0, hmem, v, hv⟩

/-- C4: apart from `type`, a key is in the map of `Metric.MetaTags` exactly when
an entry of the comma-separated `labels` value splits on `:` into that key and
a non-empty value, and it is mapped to the value of the last such entry. The
blob `a:1,b:,c:2` without a resource type gives exactly `a:1` and `c:2`; an
absent or empty blob gives no parsed tag. -/
theorem MetaTags_parsed_labels (core : Core) (m : Metric) :
    (∀ k, k ≠ "type".toList →
      (k ∈ (m.MetaTags core).domain ↔
        ∃ s ∈ Split (m.labels.index core.LabelLabels.Key) ',', ∃ v,
          Split s ':' = [k, v] ∧ v ≠ []) ∧
      (∀ v, (m.MetaTags core).commaOk k = some v ↔
        ∃ pre s post, Split (m.labels.index core.LabelLabels.Key) ',' = pre ++ s :: post ∧
          Split s ':' = [k, v] ∧ v ≠ [] ∧
          ∀ s' ∈ post, ∀ v', Split s' ':' = [k, v'] → v' = [])) ∧
    (m.labels.commaOk core.LabelLabels.Key = some "a:1,b:,c:2".toList →
      m.labels.commaOk core.LabelMetricSetType.Key = none →
      m.MetaTags core = [("a".toList, "1".toList), ("c".toList, "2".toList)]) ∧
    (m.labels.commaOk core.LabelLabels.Key = none ∨
        m.labels.commaOk core.LabelLabels.Key = some [] →
      ∀ k, k ≠ "type".toList → k ∉ (m.MetaTags core).domain) := by
  have hlast : ∀ k, k ≠ "type".toList → ∀ v, (m.MetaTags core).commaOk k = some v ↔
      ∃ pre s post, Split (m.labels.index core.LabelLabels.Key) ',' = pre ++ s :: post ∧
        Split s ':' = [k, v] ∧ v ≠ [] ∧
        ∀ s' ∈ post, ∀ v', Split s' ':' = [k, v'] → v' = [] := by
    intro k hk v
    rw [MetaTags_commaOk_of_ne_type core m k hk, MetaTags.fold_commaOk]
    simp [GoMap.commaOk]
  have hdom : ∀ k, k ≠ "type".toList → (k ∈ (m.MetaTags core).domain ↔
      ∃ s ∈ Split (m.labels.index core.LabelLabels.Key) ',', ∃ v,
        Split s ':' = [k, v] ∧ v ≠ []) := by
    intro k hk
    rw [GoMap.mem_domain_iff]
    constructor
    · rintro ⟨v, hv⟩
      obtain ⟨pre, s, post, e, h1, h2, -⟩ := (hlast k hk v).mp hv
      exact ⟨s, by rw [e]; simp, v, h1, h2⟩
    · rintro ⟨s, hs, v, h1, h2⟩
      rw [MetaTags_commaOk_of_ne_type core m k hk]
      exact MetaTags.fold_isSome k _ [] (Or.inr ⟨s, hs, v, h1, h2⟩)
  refine ⟨fun k hk => ⟨hdom k hk, hlast k hk⟩, ?_, ?_⟩
  · intro hb ht
    have hi : m.labels.index core.LabelLabels.Key = "a:1,b:,c:2".toList := by
      simp [GoMap.index, hb]
    rw [(MetaTags_shape core m).2 ht, hi]
    rfl
  · intro hb k hk
    have hi : m.labels.index core.LabelLabels.Key = [] := by
      rcases hb with hb | hb <;> simp [GoMap.index, hb]
    rw [hdom k hk, hi]
    rintro ⟨s, hs, v, h1, h2⟩
    have e : s = [] := by simpa [Split] using hs
    subst e
    simp [Split] at h1


/-- The keys of `Metric.IntrinsicTags` for each resource type that a `switch`
case names. -/
theorem IntrinsicTags_rows (core : Core) (hd : core.DistinctCases) (m : Metric) :
    ∃ tags, m.IntrinsicTags core = some tags ∧
      (m.labels.commaOk core.LabelMetricSetType.Key = some core.MetricSetTypePodContainer →
        tags.domain = ["metric".toList, "node".toList, "namespace".toList, "pod".toList,
          "container".toList]) ∧
      (m.labels.commaOk core.LabelMetricSetType.Key = some core.MetricSetTypeSystemContainer →
        tags.domain = ["metric".toList, "node".toList, "sys-containers".toList]) ∧
      (m.labels.commaOk core.LabelMetricSetType.Key = some core.MetricSetTypePod →
        tags.domain = ["metric".toList, "node".toList, "namespace".toList, "pod".toList]) ∧
      (m.labels.commaOk core.LabelMetricSetType.Key = some core.MetricSetTypeNamespace →
        tags.domain = ["metric".toList, "namespace".toList]) ∧
      (m.labels.commaOk core.LabelMetricSetType.Key = some core.MetricSetTypeNode →
        tags.domain = ["metric".toList, "node".toList]) ∧
      (m.labels.commaOk core.LabelMetricSetType.Key = some core.MetricSetTypeCluster →
        tags.domain = ["metric".toList]) := by
  obtain ⟨p, extra, htags, -, hsw, -⟩ := IntrinsicTags_shape core m
  obtain ⟨n1, n2, n3, n4, n5, n6, n7, n8, n9, n10, n11, n12, n13, n14, n15⟩ :=
    Core.DistinctCases.ne core hd
  refine ⟨_, htags, ?_, ?_, ?_, ?_, ?_, ?_⟩
  · intro ht
    rw [(hsw _ ht).1 rfl]
    rfl
  · intro ht
    rw [(hsw _ ht).2.1 n1.symm rfl]
    rfl
  · intro ht
    rw [(hsw _ ht).2.2.1 n2.symm n6.symm rfl]
    rfl
  · intro ht
    rw [(hsw _ ht).2.2.2.1 n3.symm n7.symm n10.symm rfl]
    rfl
  · intro ht
    rw [(hsw _ ht).2.2.2.2.1 n4.symm n8.symm n11.symm n13.symm rfl]
    rfl
  · intro ht
    rw [(hsw _ ht).2.2.2.2.2 n5.symm n9.symm n12.symm n14.symm n15.symm]
    rfl

/-- C5: for each of the six resource types, whatever the `labels` blob holds,
`Metric.MetaTags` maps `type` to the table value (pod-container: `container`,
system-container: `sys-container`, pod: `pod`, namespace: `namespace`, node:
`node`, cluster: `cluster`), and the same label value selects the row of
identity tags of `Metric.IntrinsicTags`. -/
theorem MetaTags_type_table (core : Core) (hd : core.DistinctCases) (m : Metric) :
    ∃ tags, m.IntrinsicTags core = some tags ∧
      (m.labels.commaOk core.LabelMetricSetType.Key = some core.MetricSetTypePodContainer →
        (m.MetaTags core).commaOk "type".toList = some "container".toList ∧
        ∀ k, k ∈ tags.domain ↔ k ∈ ["metric".toList, "node".toList, "namespace".toList,
          "pod".toList, "container".toList]) ∧
      (m.labels.commaOk core.LabelMetricSetType.Key = some core.MetricSetTypeSystemContainer →
        (m.MetaTags core).commaOk "type".toList = some "sys-container".toList ∧
        ∀ k, k ∈ tags.domain ↔
          k ∈ ["metric".toList, "node".toList, "sys-containers".toList]) ∧
      (m.labels.commaOk core.LabelMetricSetType.Key = some core.MetricSetTypePod →
        (m.MetaTags core).commaOk "type".toList = some "pod".toList ∧
        ∀ k, k ∈ tags.domain ↔ k ∈ ["metric".toList, "node".toList, "namespace".toList,
          "pod".toList]) ∧
      (m.labels.commaOk core.LabelMetricSetType.Key = some core.MetricSetTypeNamespace →
        (m.MetaTags core).commaOk "type".toList = some "namespace".toList ∧
        ∀ k, k ∈ tags.domain ↔ k ∈ ["metric".toList, "namespace".toList]) ∧
      (m.labels.commaOk core.LabelMetricSetType.Key = some core.MetricSetTypeNode →
        (m.MetaTags core).commaOk "type".toList = some "node".toList ∧
        ∀ k, k ∈ tags.domain ↔ k ∈ ["metric".toList, "node".toList]) ∧
      (m.labels.commaOk core.LabelMetricSetType.Key = some core.MetricSetTypeCluster →
        (m.MetaTags core).commaOk "type".toList = some "cluster".toList ∧
        ∀ k, k ∈ tags.domain ↔ k ∈ ["metric".toList]) := by
  obtain ⟨tags, htags, r1, r2, r3, r4, r5, r6⟩ := IntrinsicTags_rows core hd m
  obtain ⟨n1, n2, n3, n4, n5, n6, n7, n8, n9, n10, n11, n12, n13, n14, n15⟩ :=
    Core.DistinctCases.ne core hd
  obtain ⟨hsw, -⟩ := MetaTags_shape core m
  refine ⟨tags, htags, ?_, ?_, ?_, ?_, ?_, ?_⟩
  · intro ht
    refine ⟨?_, fun k => by rw [r1 ht]⟩
    rw [(hsw _ ht).1 rfl, GoMap.commaOk_assign, if_pos rfl]
  · intro ht
    refine ⟨?_, fun k => by rw [r2 ht]⟩
    rw [(hsw _ ht).2.1 n1.symm rfl, GoMap.commaOk_assign, if_pos rfl]
  · intro ht
    refine ⟨?_, fun k => by rw [r3 ht]⟩
    rw [(hsw _ ht).2.2.1 n2.symm n6.symm rfl, GoMap.commaOk_assign, if_pos rfl]
  · intro ht
    refine ⟨?_, fun k => by rw [r4 ht]⟩
    rw [(hsw _ ht).2.2.2.1 n3.symm n7.symm n10.symm rfl, GoMap.commaOk_assign, if_pos rfl]
  · intro ht
    refine ⟨?_, fun k => by rw [r5 ht]⟩
    rw [(hsw _ ht).2.2.2.2.1 n4.symm n8.symm n11.symm n13.symm rfl, GoMap.commaOk_assign,
      if_pos rfl]
  · intro ht
    refine ⟨?_, fun k => by rw [r6 ht]⟩
    rw [(hsw _ ht).2.2.2.2.2.1 n5.symm n9.symm n12.symm n14.symm n15.symm rfl,
      GoMap.commaOk_assign, if_pos rfl]

/-- C5, at a pod-container reading whose blob itself holds a `type` entry: the
`type` tag is `container`, and the identity tags are those of a pod
container. -/
theorem MetaTags_type_table_witness :
    (sampleMetric "cpu" [("type", "pod_container"), ("labels", "type:x,a:1")]).MetaTags
        sampleCore =
      [("type".toList, "container".toList), ("a".toList, "1".toList)] ∧
    ∃ tags, (sampleMetric "cpu" [("type", "pod_container"),
        ("labels", "type:x,a:1")]).IntrinsicTags sampleCore = some tags ∧
      ((sampleMetric "cpu" [("type", "pod_container"), ("labels", "type:x,a:1")]).MetaTags
          sampleCore).commaOk "type".toList = some "container".toList ∧
      "container".toList ∈ tags.domain := by
  obtain ⟨tags, h1, h2, _⟩ :=
    MetaTags_type_table sampleCore (by decide)
      (sampleMetric "cpu" [("type", "pod_container"), ("labels", "type:x,a:1")])
  exact ⟨by decide, tags, h1, (h2 (by decide)).1, ((h2 (by decide)).2 _).mpr (by decide)⟩


/-! ## Record assembly -/

/-- A key of the dimensions is looked up to its configured value after the
overlay, any other key to what it was before. -/
theorem assignAll_commaOk (dimensions : GoMap) (hv : dimensions.Valid) :
    ∀ (tags : GoMap) (k : Str),
      (assignAll dimensions tags).commaOk k =
        match dimensions.commaOk k with
        | some v => some v
        | none => tags.commaOk k := by
  induction dimensions with
  | nil =>
    intro tags k
    simp [assignAll, GoMap.commaOk]
  | cons e rest ih =>
    obtain ⟨k0, v0⟩ := e
    intro tags k
    have hv' : k0 ∉ GoMap.domain rest ∧ GoMap.Valid rest := by
      simpa [GoMap.Valid, GoMap.domain] using hv
    have hstep : assignAll ((k0, v0) :: rest) tags =
        assignAll rest (tags.assign k0 v0) := by
      simp [assignAll]
    rw [hstep, ih hv'.2, GoMap.commaOk_assign]
    by_cases hk : k0 = k
    · subst hk
      have hnone : GoMap.commaOk rest k0 = none := by
        cases h : GoMap.commaOk rest k0 with
        | none => rfl
        | some w => exact absurd ((GoMap.mem_domain_iff rest k0).mpr ⟨w, h⟩) hv'.1
      simp [GoMap.commaOk, hnone]
    · simp [GoMap.commaOk, hk]

/-- C6: `Metric.Metric` returns a record whose two tag maps are the derived
ones overlaid with the sink's dimensions: a key of the dimensions has its
configured value in both, any other key has its derived value or is absent as
in the derived map; `Value` is `m.Value()` and `Timestamp` the reading's. -/
theorem Metric_overlays_dimensions (imp : Imports) (m : Metric) (sink : Sink)
    (hv : sink.dimensions.Valid) :
    ∃ record intrinsicTags, m.Metric imp sink = some record ∧
      m.IntrinsicTags imp.core = some intrinsicTags ∧
      (∀ k v, sink.dimensions.commaOk k = some v →
        record.IntrinsicTags.commaOk k = some v ∧ record.MetaTags.commaOk k = some v) ∧
      (∀ k, sink.dimensions.commaOk k = none →
        record.IntrinsicTags.commaOk k = intrinsicTags.commaOk k ∧
        record.MetaTags.commaOk k = (m.MetaTags imp.core).commaOk k) ∧
      (∀ k, k ∈ record.IntrinsicTags.domain ↔
        k ∈ sink.dimensions.domain ∨ k ∈ intrinsicTags.domain) ∧
      (∀ k, k ∈ record.MetaTags.domain ↔
        k ∈ sink.dimensions.domain ∨ k ∈ (m.MetaTags imp.core).domain) ∧
      record.Value = m.Value imp ∧ record.Timestamp = m.timestamp := by
  obtain ⟨p, extra, htags, -⟩ := IntrinsicTags_shape imp.core m
  have hov := assignAll_commaOk sink.dimensions hv
  have hdom : ∀ (tags : GoMap) (k : Str),
      k ∈ (assignAll sink.dimensions tags).domain ↔
        k ∈ sink.dimensions.domain ∨ k ∈ tags.domain := by
    intro tags k
    rw [GoMap.mem_domain_iff, GoMap.mem_domain_iff, GoMap.mem_domain_iff]
    simp only [hov]
    cases h : sink.dimensions.commaOk k <;> simp
  have hrec : m.Metric imp sink = some
      { IntrinsicTags := assignAll sink.dimensions (("metric".toList, p) :: extra)
        MetaTags := assignAll sink.dimensions (m.MetaTags imp.core)
        Value := m.Value imp
        Timestamp := m.timestamp } := by
    simp only [Metric.Metric, htags]
  refine ⟨_, _, hrec, htags, ?_, ?_, ?_, ?_, rfl, rfl⟩
  · intro k v hk
    simp only [hov, hk, and_self]
  · intro k hk
    simp only [hov, hk, and_self]
  · intro k
    exact hdom _ k
  · intro k
    exact hdom _ k

/-- C6, at a pod reading and a sink whose dimensions redefine `node` and
`type` and add `cluster`. -/
theorem Metric_overlays_dimensions_witness :
    ∃ record, (sampleMetric "cpu" [("type", "pod"), ("hostname", "h1")]).Metric sampleImports
        ⟨[], [("node".toList, "n0".toList), ("type".toList, "t0".toList),
          ("cluster".toList, "c0".toList)], []⟩ = some record ∧
      record.IntrinsicTags.commaOk "node".toList = some "n0".toList ∧
      record.MetaTags.commaOk "type".toList = some "t0".toList ∧
      record.IntrinsicTags.commaOk "cluster".toList = some "c0".toList ∧
      record.MetaTags.commaOk "cluster".toList = some "c0".toList ∧
      record.Value = "5".toList ∧ record.Timestamp = 100 := by
  obtain ⟨record, _, h1, _, h2, _, _, _, h3, h4⟩ :=
    Metric_overlays_dimensions sampleImports
      (sampleMetric "cpu" [("type", "pod"), ("hostname", "h1")])
      ⟨[], [("node".toList, "n0".toList), ("type".toList, "t0".toList),
        ("cluster".toList, "c0".toList)], []⟩ (by decide)
  exact ⟨record, h1, (h2 _ _ (by decide)).1, (h2 _ _ (by decide)).2, (h2 _ _ (by decide)).1,
    (h2 _ _ (by decide)).2, h3.trans (by decide), h4⟩


/-! ## Decimal rendering -/

theorem digitChar_isDigit (k : Nat) (hk : k < 10) :
    (Nat.digitChar k).isDigit = true ∧ (Nat.digitChar k).toNat - '0'.toNat = k := by
  interval_cases k <;> decide

theorem decimalValue_append_singleton (s : Str) (c : Char) :
    decimalValue (s ++ [c]) = 10 * decimalValue s + (c.toNat - '0'.toNat) := by
  simp [decimalValue, List.foldl_append]

/-- The digits of `n` are put in front of the digits already produced. -/
theorem toDigitsCore_append (fuel : Nat) :
    ∀ (n : Nat) (ds : List Char),
      Nat.toDigitsCore 10 fuel n ds = Nat.toDigitsCore 10 fuel n [] ++ ds := by
  induction fuel with
  | zero => intro n ds; simp [Nat.toDigitsCore]
  | succ fuel ih =>
    intro n ds
    simp only [Nat.toDigitsCore]
    split_ifs with h
    · simp
    · rw [ih (n / 10) (Nat.digitChar (n % 10) :: ds), ih (n / 10) [Nat.digitChar (n % 10)]]
      simp

/-- With enough fuel the digits produced are decimal digits that denote `n`. -/
theorem toDigitsCore_spec (fuel : Nat) :
    ∀ n : Nat, n < fuel →
      decimalValue (Nat.toDigitsCore 10 fuel n []) = n ∧
      (∀ c ∈ Nat.toDigitsCore 10 fuel n [], c.isDigit = true) ∧
      Nat.toDigitsCore 10 fuel n [] ≠ [] := by
  induction fuel with
  | zero => intro n hn; omega
  | succ fuel ih =>
    intro n hn
    have hd := digitChar_isDigit (n % 10) (Nat.mod_lt _ (by decide))
    simp only [Nat.toDigitsCore]
    split_ifs with h
    · have hlt : n < 10 := by omega
      have hmod : n % 10 = n := Nat.mod_eq_of_lt hlt
      refine ⟨?_, ?_, by simp⟩
      · simp only [decimalValue, List.foldl_cons, List.foldl_nil]
        omega
      · intro c hc
        simp only [List.mem_singleton] at hc
        rw [hc]
        exact hd.1
    · have hlt : n / 10 < fuel := by omega
      obtain ⟨h1, h2, h3⟩ := ih (n / 10) hlt
      rw [toDigitsCore_append]
      refine ⟨?_, ?_, by simp⟩
      · rw [decimalValue_append_singleton, h1]
        omega
      · intro c hc
        rcases List.mem_append.mp hc with hc | hc
        · exact h2 c hc
        · simp only [List.mem_singleton] at hc
          rw [hc]
          exact hd.1

/-- The rendering of a natural number: non-empty, decimal digits only, and it
denotes the number. -/
theorem toDigits_spec (n : Nat) :
    decimalValue (Nat.toDigits 10 n) = n ∧ (∀ c ∈ Nat.toDigits 10 n, c.isDigit = true) ∧
      Nat.toDigits 10 n ≠ [] :=
  toDigitsCore_spec (n + 1) n (Nat.lt_succ_self n)

/-- The rendering of an integer: the digits of its absolute value, after a minus
sign exactly when it is negative. -/
theorem Sprintf_d_spec (i : Int) :
    ∃ ds : Str, ds ≠ [] ∧ (∀ c ∈ ds, c.isDigit = true) ∧ decimalValue ds = i.natAbs ∧
      (0 ≤ i → Sprintf_d i = ds) ∧ (i < 0 → Sprintf_d i = '-' :: ds) := by
  cases i with
  | ofNat n =>
    obtain ⟨h1, h2, h3⟩ := toDigits_spec n
    refine ⟨Nat.toDigits 10 n, h3, h2, h1, fun _ => rfl, fun h => ?_⟩
    exact absurd h (by simp)
  | negSucc n =>
    obtain ⟨h1, h2, h3⟩ := toDigits_spec (n + 1)
    refine ⟨Nat.toDigits 10 (n + 1), h3, h2, h1, fun h => ?_, fun _ => rfl⟩
    exact absurd h (by simp [Int.negSucc_lt_zero])


/-! ## The rendering of a float -/

theorem sixDigits_spec (k : Nat) :
    (sixDigits k).length = 6 ∧ (∀ c ∈ sixDigits k, c.isDigit = true) ∧
      (k < 10 ^ 6 → decimalValue (sixDigits k) = k) := by
  have hd : ∀ j, (Nat.digitChar (j % 10)).isDigit = true ∧
      (Nat.digitChar (j % 10)).toNat - '0'.toNat = j % 10 :=
    fun j => digitChar_isDigit (j % 10) (Nat.mod_lt _ (by decide))
  refine ⟨rfl, ?_, ?_⟩
  · intro c hc
    simp only [sixDigits, List.map_cons, List.map_nil, List.mem_cons, List.mem_singleton,
      List.not_mem_nil, or_false] at hc
    rcases hc with h | h | h | h | h | h <;> (rw [h]; exact (hd _).1)
  · intro hk
    simp only [sixDigits, List.map_cons, List.map_nil, decimalValue, List.foldl_cons,
      List.foldl_nil, (hd _).2]
    norm_num
    omega

/-- The rounding is to a nearest integer. -/
theorem roundHalfEven_near (num den : Nat) (hden : 0 < den) :
    2 * (roundHalfEven num den * den) ≤ 2 * num + den ∧
      2 * num ≤ 2 * (roundHalfEven num den * den) + den := by
  have hdm : den * (num / den) + num % den = num := Nat.div_add_mod num den
  have hr : num % den < den := Nat.mod_lt _ hden
  have hmul : (num / den + 1) * den = den * (num / den) + den := by ring
  have hmul' : num / den * den = den * (num / den) := by ring
  unfold roundHalfEven
  simp only []
  split_ifs with h
  · rw [hmul]
    rcases h with h | ⟨h, -⟩ <;> omega
  · rw [hmul']
    have h1 : ¬ den < 2 * (num % den) := fun e => h (Or.inl e)
    omega

/-- A fixed-point decimal string holds a point. -/
theorem FixedPoint.point_mem {s : Str} (h : FixedPoint s) : '.' ∈ s := by
  obtain ⟨negative, whole, frac, hs, -⟩ := h
  rw [hs]
  simp

/-- The rendering of a finite `float32` is a fixed-point decimal string with six
decimals, its digits those of the value rounded to six decimals. -/
theorem Sprintf_f_finite (x : Float32) (hfin : x.exponent ≠ 255) :
    FixedPoint (Sprintf_f x) ∧
    ∃ (n : Nat) (whole frac : Str),
      Sprintf_f x = (if x.sign then "-".toList else []) ++ whole ++ ".".toList ++ frac ∧
      whole ≠ [] ∧ (∀ c ∈ whole, c.isDigit = true) ∧
      frac.length = 6 ∧ (∀ c ∈ frac, c.isDigit = true) ∧
      decimalValue whole = n / 10 ^ 6 ∧ decimalValue frac = n % 10 ^ 6 ∧
      2 * (n * x.magnitude.2) ≤ 2 * (x.magnitude.1 * 10 ^ 6) + x.magnitude.2 ∧
      2 * (x.magnitude.1 * 10 ^ 6) ≤ 2 * (n * x.magnitude.2) + x.magnitude.2 := by
  have hden : 0 < x.magnitude.2 := by
    unfold Float32.magnitude
    simp only []
    split_ifs <;> simp
  obtain ⟨w1, w2, w3⟩ :=
    toDigits_spec (roundHalfEven (x.magnitude.1 * 10 ^ 6) x.magnitude.2 / 10 ^ 6)
  obtain ⟨f1, f2, f3⟩ :=
    sixDigits_spec (roundHalfEven (x.magnitude.1 * 10 ^ 6) x.magnitude.2 % 10 ^ 6)
  have hs : Sprintf_f x =
      (if x.sign then "-".toList else []) ++
        Nat.toDigits 10 (roundHalfEven (x.magnitude.1 * 10 ^ 6) x.magnitude.2 / 10 ^ 6) ++
        ".".toList ++
        sixDigits (roundHalfEven (x.magnitude.1 * 10 ^ 6) x.magnitude.2 % 10 ^ 6) := by
    simp only [Sprintf_f, hfin, if_false]
  have hfne : sixDigits (roundHalfEven (x.magnitude.1 * 10 ^ 6) x.magnitude.2 % 10 ^ 6) ≠ [] := by
    intro e
    rw [e] at f1
    cases f1
  obtain ⟨r1, r2⟩ := roundHalfEven_near (x.magnitude.1 * 10 ^ 6) x.magnitude.2 hden
  exact ⟨⟨x.sign, _, _, hs, w3, hfne, w2, f2⟩,
    ⟨_, _, _, hs, w3, w2, f1, f2, w1, f3 (Nat.mod_lt _ (by decide)), r1, r2⟩⟩

/-- The rendering of a `float32` that is not finite. -/
theorem Sprintf_f_not_finite (x : Float32) (hinf : x.exponent = 255) :
    (x.fraction ≠ 0 → Sprintf_f x = "NaN".toList) ∧
    (x.fraction = 0 → x.sign = true → Sprintf_f x = "-Inf".toList) ∧
    (x.fraction = 0 → x.sign = false → Sprintf_f x = "+Inf".toList) ∧
    ¬ FixedPoint (Sprintf_f x) := by
  refine ⟨?_, ?_, ?_, ?_⟩
  · intro h
    simp only [Sprintf_f, hinf, if_true, h, ne_eq, not_false_eq_true]
  · intro h hs
    simp only [Sprintf_f, hinf, if_true, h, ne_eq, not_true_eq_false, if_false, hs]
  · intro h hs
    simp only [Sprintf_f, hinf, if_true, h, ne_eq, not_true_eq_false, if_false, hs]
    rfl
  · intro hfp
    have hp := hfp.point_mem
    simp only [Sprintf_f, hinf, if_true] at hp
    split_ifs at hp <;> exact absurd hp (by decide)

/-! ## The Carbon2 line -/

/-- Writing one rendered piece per entry appends the pieces in the order of the
visit. -/
theorem foldl_WriteString {α : Type} (render : α → Str) (entries : List α) :
    ∀ buffer : Str,
      entries.foldl (fun buffer e => WriteString buffer (render e)) buffer =
        buffer ++ entries.flatMap render := by
  induction entries with
  | nil => intro buffer; simp
  | cons e rest ih =>
    intro buffer
    rw [List.foldl_cons, ih]
    simp [WriteString, List.flatMap_cons]

/-- A valid map holds no entry twice. -/
theorem GoMap.nodup_of_valid (m : GoMap) (h : m.Valid) : m.Nodup :=
  List.Nodup.of_map Prod.fst h

/-- C7: `Carbon2Metric.String` returns the intrinsic pairs, each as `key=value`
and a space, then a space, then the metadata pairs in the same way, then the
value, a space and the timestamp in decimal, after which nothing follows. A
pair of a map is written once, a valid map holding no pair twice. The record
with `metric:m`, `type:pod`, value `5` and timestamp 100 gives
`metric=m  type=pod 5 100`. -/
theorem String_line (metric : Carbon2Metric) :
    metric.String =
      metric.IntrinsicTags.flatMap (fun kv => kv.1 ++ "=".toList ++ kv.2 ++ " ".toList) ++
        " ".toList ++
        metric.MetaTags.flatMap (fun kv => kv.1 ++ "=".toList ++ kv.2 ++ " ".toList) ++
        metric.Value ++ " ".toList ++ Sprintf_d metric.Timestamp ∧
    (metric.IntrinsicTags.Valid → metric.IntrinsicTags.Nodup) ∧
    (metric.MetaTags.Valid → metric.MetaTags.Nodup) ∧
    (∃ ds : Str, ds ≠ [] ∧ (∀ c ∈ ds, c.isDigit = true) ∧
      decimalValue ds = metric.Timestamp.natAbs ∧
      (0 ≤ metric.Timestamp → Sprintf_d metric.Timestamp = ds) ∧
      (metric.Timestamp < 0 → Sprintf_d metric.Timestamp = '-' :: ds)) ∧
    Carbon2Metric.String
        { IntrinsicTags := [("metric".toList, "m".toList)]
          MetaTags := [("type".toList, "pod".toList)]
          Value := "5".toList
          Timestamp := 100 } = "metric=m  type=pod 5 100".toList := by
  refine ⟨?_, ?_, ?_, Sprintf_d_spec metric.Timestamp, by decide⟩
  · simp only [Carbon2Metric.String, foldl_WriteString]
    simp only [WriteString, List.nil_append, List.append_assoc]
  · exact GoMap.nodup_of_valid _
  · exact GoMap.nodup_of_valid _

/-! ## The value -/

/-- C8, as amended: `Metric.Value` returns the decimal rendering of the integer
value when the kind is integer (digits only, after a minus sign exactly for a
negative value, no decimal point) and the empty string for any kind other than
integer and floating-point. When the kind is floating-point it returns the
`%f` rendering of the floating value: a fixed-point decimal string, the value
rounded to six decimals, when the value is finite, and `NaN`, `+Inf` or `-Inf`,
which is no fixed-point decimal string, when it is not. -/
theorem Value_by_kind (imp : Imports) (hd : imp.core.DistinctCases)
    (hf : imp.Sprintf_f = Sprintf_f) (m : Metric) :
    (m.value.ValueType = imp.core.ValueInt64 →
      m.Value imp = Sprintf_d m.value.IntValue ∧
      (∃ ds : Str, ds ≠ [] ∧ (∀ c ∈ ds, c.isDigit = true) ∧
        decimalValue ds = m.value.IntValue.natAbs ∧
        (0 ≤ m.value.IntValue → m.Value imp = ds) ∧
        (m.value.IntValue < 0 → m.Value imp = '-' :: ds)) ∧
      '.' ∉ m.Value imp) ∧
    (m.value.ValueType = imp.core.ValueFloat →
      m.Value imp = Sprintf_f m.value.FloatValue ∧
      (m.value.FloatValue.exponent ≠ 255 →
        FixedPoint (m.Value imp) ∧
        ∃ (n : Nat) (whole frac : Str),
          m.Value imp =
            (if m.value.FloatValue.sign then "-".toList else []) ++ whole ++ ".".toList ++
              frac ∧
          whole ≠ [] ∧ (∀ c ∈ whole, c.isDigit = true) ∧
          frac.length = 6 ∧ (∀ c ∈ frac, c.isDigit = true) ∧
          decimalValue whole = n / 10 ^ 6 ∧ decimalValue frac = n % 10 ^ 6 ∧
          2 * (n * m.value.FloatValue.magnitude.2) ≤
            2 * (m.value.FloatValue.magnitude.1 * 10 ^ 6) + m.value.FloatValue.magnitude.2 ∧
          2 * (m.value.FloatValue.magnitude.1 * 10 ^ 6) ≤
            2 * (n * m.value.FloatValue.magnitude.2) + m.value.FloatValue.magnitude.2) ∧
      (m.value.FloatValue.exponent = 255 →
        (m.value.FloatValue.fraction ≠ 0 → m.Value imp = "NaN".toList) ∧
        (m.value.FloatValue.fraction = 0 → m.value.FloatValue.sign = true →
          m.Value imp = "-Inf".toList) ∧
        (m.value.FloatValue.fraction = 0 → m.value.FloatValue.sign = false →
          m.Value imp = "+Inf".toList) ∧
        ¬ FixedPoint (m.Value imp))) ∧
    (m.value.ValueType ≠ imp.core.ValueInt64 → m.value.ValueType ≠ imp.core.ValueFloat →
      m.Value imp = []) := by
  refine ⟨?_, ?_, ?_⟩
  · intro hk
    have hval : m.Value imp = Sprintf_d m.value.IntValue := by simp [Metric.Value, hk]
    obtain ⟨ds, h1, h2, h3, h4, h5⟩ := Sprintf_d_spec m.value.IntValue
    refine ⟨hval, ⟨ds, h1, h2, h3, fun h => hval.trans (h4 h), fun h => hval.trans (h5 h)⟩, ?_⟩
    rw [hval]
    intro hmem
    have hdot : ∀ c ∈ ds, c ≠ '.' := by
      intro c hc e
      have := h2 c hc
      rw [e] at this
      exact absurd this (by decide)
    rcases lt_or_le m.value.IntValue 0 with hneg | hpos
    · rw [h5 hneg] at hmem
      rcases List.mem_cons.mp hmem with e | hmem
      · exact absurd e (by decide)
      · exact hdot _ hmem rfl
    · rw [h4 hpos] at hmem
      exact hdot _ hmem rfl
  · intro hk
    have hne : ¬ imp.core.ValueFloat = imp.core.ValueInt64 := fun e => hd.2 e.symm
    have hval : m.Value imp = Sprintf_f m.value.FloatValue := by
      simp [Metric.Value, hk, hne, hf]
    refine ⟨hval, ?_, ?_⟩
    · intro hfin
      rw [hval]
      exact Sprintf_f_finite _ hfin
    · intro hinf
      rw [hval]
      exact Sprintf_f_not_finite _ hinf
  · intro h1 h2
    simp [Metric.Value, h1, h2]

/-- C8, at the integer readings 5 and -42, the floating readings 1.5 and
-123.456, and a reading of another kind. -/
theorem Value_by_kind_witness :
    Metric.Value sampleImports ⟨[], sampleInt 5, [], 0⟩ = "5".toList ∧
    Metric.Value sampleImports ⟨[], sampleInt (-42), [], 0⟩ = "-42".toList ∧
    Metric.Value sampleImports ⟨[], ⟨0, ⟨0x3FC00000⟩, 1⟩, [], 0⟩ = "1.500000".toList ∧
    Metric.Value sampleImports ⟨[], ⟨0, ⟨0xC2F6E979⟩, 1⟩, [], 0⟩ = "-123.456001".toList ∧
    FixedPoint (Metric.Value sampleImports ⟨[], ⟨0, ⟨0xC2F6E979⟩, 1⟩, [], 0⟩) ∧
    Metric.Value sampleImports ⟨[], ⟨7, ⟨0⟩, 2⟩, [], 0⟩ = [] :=
  ⟨((Value_by_kind sampleImports (by decide) rfl ⟨[], sampleInt 5, [], 0⟩).1 rfl).1.trans
      (by decide),
    ((Value_by_kind sampleImports (by decide) rfl ⟨[], sampleInt (-42), [], 0⟩).1 rfl).1.trans
      (by decide),
    ((Value_by_kind sampleImports (by decide) rfl ⟨[], ⟨0, ⟨0x3FC00000⟩, 1⟩, [], 0⟩).2.1
      rfl).1.trans (by decide),
    ((Value_by_kind sampleImports (by decide) rfl ⟨[], ⟨0, ⟨0xC2F6E979⟩, 1⟩, [], 0⟩).2.1
      rfl).1.trans (by decide),
    (((Value_by_kind sampleImports (by decide) rfl ⟨[], ⟨0, ⟨0xC2F6E979⟩, 1⟩, [], 0⟩).2.1
      rfl).2.1 (by decide)).1,
    (Value_by_kind sampleImports (by decide) rfl ⟨[], ⟨7, ⟨0⟩, 2⟩, [], 0⟩).2.2 (by decide)
      (by decide)⟩

/-- C8, the claim as stated fails: a floating-point reading whose value is a
NaN is rendered as `NaN`, and one whose value is the positive infinity as
`+Inf`; neither is a fixed-point decimal string. -/
theorem Value_of_NaN_or_Inf :
    (⟨0, ⟨0x7FC00000⟩, 1⟩ : MetricValue).ValueType = sampleImports.core.ValueFloat ∧
    Metric.Value sampleImports ⟨[], ⟨0, ⟨0x7FC00000⟩, 1⟩, [], 0⟩ = "NaN".toList ∧
    ¬ FixedPoint (Metric.Value sampleImports ⟨[], ⟨0, ⟨0x7FC00000⟩, 1⟩, [], 0⟩) ∧
    Metric.Value sampleImports ⟨[], ⟨0, ⟨0x7F800000⟩, 1⟩, [], 0⟩ = "+Inf".toList ∧
    ¬ FixedPoint (Metric.Value sampleImports ⟨[], ⟨0, ⟨0x7F800000⟩, 1⟩, [], 0⟩) := by
  have h1 : Metric.Value sampleImports ⟨[], ⟨0, ⟨0x7FC00000⟩, 1⟩, [], 0⟩ = "NaN".toList := by
    decide
  have h2 : Metric.Value sampleImports ⟨[], ⟨0, ⟨0x7F800000⟩, 1⟩, [], 0⟩ = "+Inf".toList := by
    decide
  refine ⟨rfl, h1, ?_, h2, ?_⟩
  · rw [h1]
    intro hfp
    exact absurd hfp.point_mem (by decide)
  · rw [h2]
    intro hfp
    exact absurd hfp.point_mem (by decide)

/-! ## The heap -/

theorem Heap.deref_append_left (heap extra : Heap) (a : Addr) (h : a < heap.length) :
    Heap.deref (heap ++ extra) a = Heap.deref heap a := by
  simp [Heap.deref, List.getD_eq_getElem?_getD, List.getElem?_append_left h]

theorem Heap.deref_append_length (heap : Heap) (x : GoMap) :
    Heap.deref (heap ++ [x]) heap.length = x := by
  simp [Heap.deref, List.getD_eq_getElem?_getD]

theorem Heap.store_append_length (heap : Heap) (x : GoMap) (k v : Str) :
    Heap.store (heap ++ [x]) heap.length k v = heap ++ [x.assign k v] := by
  rw [Heap.store, Heap.deref_append_length]
  simp

/-- Copying into the newest map object assigns every entry to it and touches no
other object. -/
theorem copyLabels_append_length (heap : Heap) (src : GoMap) :
    ∀ x : GoMap, copyLabels (heap ++ [x]) heap.length src = heap ++ [assignAll src x] := by
  induction src with
  | nil => intro x; rfl
  | cons e rest ih =>
    intro x
    have h1 : copyLabels (heap ++ [x]) heap.length (e :: rest) =
        copyLabels (Heap.store (heap ++ [x]) heap.length e.1 e.2) heap.length rest := rfl
    have h2 : assignAll (e :: rest) x = assignAll rest (x.assign e.1 e.2) := rfl
    rw [h1, h2, Heap.store_append_length, ih]

/-- The method `Metric.Metric` never panics. -/
theorem Metric_total (imp : Imports) (m : Metric) (sink : Sink) :
    ∃ record, m.Metric imp sink = some record := by
  obtain ⟨p, extra, htags, -⟩ := IntrinsicTags_shape imp.core m
  simp only [Metric.Metric, htags]
  exact ⟨_, rfl⟩

/-- The loop over the simple metrics appends one record per metric, extracted
from the reading the specification describes. -/
theorem rangeMetricValues_spec (imp : Imports) (sink : Sink) (heap : Heap)
    (dataBatch : DataBatch) (metricSet : MetricSet) (values : List (Str × MetricValue)) :
    ∀ metrics : List Carbon2Metric, ∃ new,
      rangeMetricValues imp sink heap dataBatch metricSet values metrics = some (metrics ++ new) ∧
      List.Forall₂ (fun record (reading : Metric) => reading.Metric imp sink = some record) new
        (values.map fun e =>
          ({ name := e.1
             value := e.2
             labels := heap.deref metricSet.Labels
             timestamp := dataBatch.Timestamp.Unix } : Metric)) := by
  induction values with
  | nil =>
    intro metrics
    exact ⟨[], by simp [rangeMetricValues], List.Forall₂.nil⟩
  | cons e rest ih =>
    intro metrics
    obtain ⟨metricName, metricValue⟩ := e
    obtain ⟨record, hrec⟩ := Metric_total imp
      { name := metricName
        value := metricValue
        labels := heap.deref metricSet.Labels
        timestamp := dataBatch.Timestamp.Unix } sink
    obtain ⟨new, hnew, hall⟩ := ih (metrics ++ [record])
    refine ⟨record :: new, ?_, List.Forall₂.cons hrec hall⟩
    simp only [rangeMetricValues, hrec, hnew]
    simp

/-- The loop over the labeled metrics appends one record per metric with a
present value, extracted from the overlaid labels, and only adds map objects to
the heap. -/
theorem rangeLabeledMetrics_spec (imp : Imports) (sink : Sink) (heap0 : Heap)
    (dataBatch : DataBatch) (metricSet : MetricSet) (hset : metricSet.Labels < heap0.length)
    (labeled : List LabeledMetric) :
    (∀ metric ∈ labeled, metric.Labels < heap0.length) →
    ∀ (extra : Heap) (metrics : List Carbon2Metric), ∃ extra' new,
      rangeLabeledMetrics imp sink dataBatch metricSet labeled (heap0 ++ extra) metrics =
        some (heap0 ++ extra', metrics ++ new) ∧
      List.Forall₂ (fun record (reading : Metric) => reading.Metric imp sink = some record) new
        ((labeled.filter fun metric =>
            decide (imp.core.GetValue metric.MetricValue ≠ Interface.nil)).map fun metric =>
          ({ name := metric.Name
             value := metric.MetricValue
             labels := overlay (heap0.deref metricSet.Labels) (heap0.deref metric.Labels)
             timestamp := dataBatch.Timestamp.Unix } : Metric)) := by
  induction labeled with
  | nil =>
    intro _ extra metrics
    exact ⟨extra, [], by simp [rangeLabeledMetrics], List.Forall₂.nil⟩
  | cons metric rest ih =>
    intro hall extra metrics
    have hm : metric.Labels < heap0.length := hall metric (List.mem_cons_self _ _)
    have hrest : ∀ metric ∈ rest, metric.Labels < heap0.length :=
      fun x hx => hall x (List.mem_cons_of_mem _ hx)
    by_cases hp : imp.core.GetValue metric.MetricValue = Interface.nil
    · obtain ⟨extra', new, hnew, hF⟩ := ih hrest extra metrics
      refine ⟨extra', new, ?_, ?_⟩
      · simp only [rangeLabeledMetrics, hp, ne_eq, not_true_eq_false, if_false, hnew]
      · simpa [List.filter_cons, hp] using hF
    · have hlen1 : metricSet.Labels < (heap0 ++ extra).length := by
        rw [List.length_append]
        exact Nat.lt_of_lt_of_le hset (Nat.le_add_right _ _)
      have hlen2 : metric.Labels < (heap0 ++ extra).length := by
        rw [List.length_append]
        exact Nat.lt_of_lt_of_le hm (Nat.le_add_right _ _)
      have hbase : Heap.deref (heap0 ++ extra ++ [[]]) metricSet.Labels =
          heap0.deref metricSet.Labels := by
        rw [Heap.deref_append_left _ _ _ hlen1, Heap.deref_append_left _ _ _ hset]
      have hover : ∀ x : GoMap, Heap.deref (heap0 ++ extra ++ [x]) metric.Labels =
          heap0.deref metric.Labels := by
        intro x
        rw [Heap.deref_append_left _ _ _ hlen2, Heap.deref_append_left _ _ _ hm]
      have hheap : copyLabels
          (copyLabels (heap0 ++ extra ++ [[]]) (heap0 ++ extra).length
            (Heap.deref (heap0 ++ extra ++ [[]]) metricSet.Labels))
          (heap0 ++ extra).length
          (Heap.deref (copyLabels (heap0 ++ extra ++ [[]]) (heap0 ++ extra).length
            (Heap.deref (heap0 ++ extra ++ [[]]) metricSet.Labels)) metric.Labels) =
          heap0 ++ (extra ++
            [overlay (heap0.deref metricSet.Labels) (heap0.deref metric.Labels)]) := by
        rw [hbase, copyLabels_append_length, hover, copyLabels_append_length]
        simp [overlay]
      obtain ⟨record, hrec⟩ := Metric_total imp
        { name := metric.Name
          value := metric.MetricValue
          labels := overlay (heap0.deref metricSet.Labels) (heap0.deref metric.Labels)
          timestamp := dataBatch.Timestamp.Unix } sink
      obtain ⟨extra', new, hnew, hF⟩ := ih hrest
        (extra ++ [overlay (heap0.deref metricSet.Labels) (heap0.deref metric.Labels)])
        (metrics ++ [record])
      have hlabels : Heap.deref (heap0 ++ (extra ++
            [overlay (heap0.deref metricSet.Labels) (heap0.deref metric.Labels)]))
          (heap0 ++ extra).length =
          overlay (heap0.deref metricSet.Labels) (heap0.deref metric.Labels) := by
        rw [← List.append_assoc, Heap.deref_append_length]
      refine ⟨extra', record :: new, ?_, ?_⟩
      · simp only [rangeLabeledMetrics, Heap.make, hp, ne_eq, not_false_eq_true, if_true, hheap,
          hlabels, hrec, hnew]
        simp
      · have hF' := List.Forall₂.cons
          (R := fun record (reading : Metric) => reading.Metric imp sink = some record) hrec hF
        simpa [List.filter_cons, hp] using hF'


/-! ## The export -/

/-- The loop over the metric sets appends the records of the readings the
specification describes, and only adds map objects to the heap. -/
theorem rangeMetricSets_spec (imp : Imports) (sink : Sink) (heap0 : Heap)
    (dataBatch : DataBatch) (sets : List (Str × MetricSet)) :
    (∀ e ∈ sets, e.2.Labels < heap0.length ∧
      ∀ metric ∈ e.2.LabeledMetrics, metric.Labels < heap0.length) →
    ∀ (extra : Heap) (metrics : List Carbon2Metric), ∃ extra' new,
      rangeMetricSets imp sink dataBatch sets (heap0 ++ extra) metrics =
        some (heap0 ++ extra', metrics ++ new) ∧
      List.Forall₂ (fun record (reading : Metric) => reading.Metric imp sink = some record) new
        (sets.flatMap fun e =>
          simpleReadings heap0 dataBatch e.2 ++ labeledReadings imp heap0 dataBatch e.2) := by
  induction sets with
  | nil =>
    intro _ extra metrics
    exact ⟨extra, [], by simp [rangeMetricSets], List.Forall₂.nil⟩
  | cons e rest ih =>
    intro hall extra metrics
    obtain ⟨name, metricSet⟩ := e
    obtain ⟨hset, hlab⟩ := hall (name, metricSet) (List.mem_cons_self _ _)
    have hrest : ∀ e ∈ rest, e.2.Labels < heap0.length ∧
        ∀ metric ∈ e.2.LabeledMetrics, metric.Labels < heap0.length :=
      fun x hx => hall x (List.mem_cons_of_mem _ hx)
    obtain ⟨new1, h1, hF1⟩ := rangeMetricValues_spec imp sink (heap0 ++ extra) dataBatch
      metricSet metricSet.MetricValues metrics
    rw [Heap.deref_append_left heap0 extra _ hset] at hF1
    obtain ⟨extra2, new2, h2, hF2⟩ := rangeLabeledMetrics_spec imp sink heap0 dataBatch
      metricSet hset metricSet.LabeledMetrics hlab extra (metrics ++ new1)
    obtain ⟨extra3, new3, h3, hF3⟩ := ih hrest extra2 (metrics ++ new1 ++ new2)
    refine ⟨extra3, new1 ++ new2 ++ new3, ?_, ?_⟩
    · simp only [rangeMetricSets, h1, h2, h3]
      simp
    · rw [List.flatMap_cons]
      exact List.rel_append (List.rel_append hF1 hF2) hF3

/-- The method `Sink.ExportData` never panics; it leaves the map objects it was
given as they were, and its records are those of the readings the
specification describes, in order. -/
theorem ExportData_spec (imp : Imports) (sink : Sink) (heap : Heap) (dataBatch : DataBatch)
    (outcome : HttpOutcome) (halloc : dataBatch.Allocated heap) :
    ∃ e extra, sink.ExportData imp heap dataBatch outcome = some e ∧ e.heap = heap ++ extra ∧
      List.Forall₂ (fun record (reading : Metric) => reading.Metric imp sink = some record)
        e.metrics (readings imp heap dataBatch) := by
  obtain ⟨extra, new, h, hF⟩ :=
    rangeMetricSets_spec imp sink heap dataBatch dataBatch.MetricSets halloc [] []
  rw [List.append_nil, List.nil_append] at h
  exact ⟨⟨heap ++ extra, new, sendToSumoLogic sink.url new outcome⟩, extra,
    by simp only [Sink.ExportData, h], rfl, hF⟩

/-- Every reading has its record among related lists. -/
theorem exists_record_of_mem {R : Carbon2Metric → Metric → Prop} :
    ∀ {records : List Carbon2Metric} {rs : List Metric}, List.Forall₂ R records rs →
      ∀ reading ∈ rs, ∃ record ∈ records, R record reading := by
  intro records rs h
  induction h with
  | nil => intro reading hr; cases hr
  | cons hab _ ih =>
    intro reading hr
    rcases List.mem_cons.mp hr with e | hmem
    · subst e
      exact ⟨_, List.mem_cons_self _ _, hab⟩
    · obtain ⟨record, hmem', hR⟩ := ih reading hmem
      exact ⟨record, List.mem_cons_of_mem _ hmem', hR⟩

/-- The number of readings of a batch. -/
theorem readings_length (imp : Imports) (heap : Heap) (dataBatch : DataBatch) :
    (readings imp heap dataBatch).length =
      (dataBatch.MetricSets.map fun s =>
        s.2.MetricValues.length +
          (s.2.LabeledMetrics.filter fun metric =>
            decide (imp.core.GetValue metric.MetricValue ≠ Interface.nil)).length).sum := by
  unfold readings
  induction dataBatch.MetricSets with
  | nil => rfl
  | cons e rest ih =>
    rw [List.flatMap_cons, List.length_append, ih]
    simp [simpleReadings, labeledReadings]

/-- C9: `ExportData` returns, and the records it accumulated are, in order,
one per simple metric of every metric set (extracted from the metric's name
and value, the metric set's labels and the batch timestamp in unix seconds)
and one per labeled metric whose value is present; their number is the sum
over the metric sets of the number of simple metrics plus the number of
labeled metrics with a present value. -/
theorem ExportData_records (imp : Imports) (sink : Sink) (heap : Heap) (dataBatch : DataBatch)
    (outcome : HttpOutcome) (halloc : dataBatch.Allocated heap) :
    ∃ e, sink.ExportData imp heap dataBatch outcome = some e ∧
      List.Forall₂ (fun record (reading : Metric) => reading.Metric imp sink = some record)
        e.metrics
        (dataBatch.MetricSets.flatMap fun s =>
          (s.2.MetricValues.map fun mv =>
            ({ name := mv.1
               value := mv.2
               labels := heap.deref s.2.Labels
               timestamp := dataBatch.Timestamp.Unix } : Metric)) ++
          labeledReadings imp heap dataBatch s.2) ∧
      (∀ s, (labeledReadings imp heap dataBatch s).length =
        (s.LabeledMetrics.filter fun metric =>
          decide (imp.core.GetValue metric.MetricValue ≠ Interface.nil)).length) ∧
      e.metrics.length =
        (dataBatch.MetricSets.map fun s =>
          s.2.MetricValues.length +
            (s.2.LabeledMetrics.filter fun metric =>
              decide (imp.core.GetValue metric.MetricValue ≠ Interface.nil)).length).sum := by
  obtain ⟨e, extra, he, -, hF⟩ := ExportData_spec imp sink heap dataBatch outcome halloc
  refine ⟨e, he, hF, ?_, ?_⟩
  · intro s
    simp [labeledReadings]
  · rw [hF.length_eq, readings_length]

/-- C9, at the sample batch: three records, none for the labeled metric without
a value. -/
theorem ExportData_records_witness :
    ∃ e, sampleSink.ExportData sampleImports sampleHeap sampleBatch (HttpOutcome.response 200) =
        some e ∧ e.metrics.length = 3 := by
  obtain ⟨e, he, _, _, hlen⟩ :=
    ExportData_records sampleImports sampleSink sampleHeap sampleBatch (HttpOutcome.response 200)
      (by decide)
  exact ⟨e, he, hlen.trans (by decide)⟩

/-- A map object of a valid heap, or the empty map of an unused address, is
valid. -/
theorem Heap.valid_deref (heap : Heap) (h : heap.Valid) (a : Addr) : (heap.deref a).Valid := by
  unfold Heap.deref
  rw [List.getD_eq_getElem?_getD]
  cases hget : heap[a]? with
  | none => exact GoMap.valid_nil
  | some m => exact h m (List.getElem?_mem hget)

/-- The lookups of an overlay: the entry of `over`, or else that of `base`. -/
theorem overlay_commaOk (base over : GoMap) (hb : base.Valid) (ho : over.Valid) (k : Str) :
    (overlay base over).commaOk k =
      match over.commaOk k with
      | some v => some v
      | none => base.commaOk k := by
  unfold overlay
  rw [assignAll_commaOk over ho, assignAll_commaOk base hb]
  cases over.commaOk k with
  | some v => rfl
  | none =>
    cases base.commaOk k with
    | some v => rfl
    | none => rfl

/-- C10: `ExportData` returns and leaves every map object it was given as it
was, in particular the labels of every metric set. The record of a labeled
metric with a present value is extracted from labels that hold the metric's
own value for each of its keys and the metric set's value for any other key;
the record of a simple metric is extracted from the metric set's labels as
they were and still are. -/
theorem ExportData_overlay_frame (imp : Imports) (sink : Sink) (heap : Heap)
    (dataBatch : DataBatch) (outcome : HttpOutcome) (hvalid : heap.Valid)
    (halloc : dataBatch.Allocated heap) :
    ∃ e, sink.ExportData imp heap dataBatch outcome = some e ∧
      (∀ a, a < heap.length → e.heap.deref a = heap.deref a) ∧
      (∀ s ∈ dataBatch.MetricSets, e.heap.deref s.2.Labels = heap.deref s.2.Labels) ∧
      (∀ s ∈ dataBatch.MetricSets, ∀ metric ∈ s.2.LabeledMetrics,
        imp.core.GetValue metric.MetricValue ≠ Interface.nil →
        ∃ record ∈ e.metrics, ∃ labels : GoMap,
          Metric.Metric imp
            { name := metric.Name
              value := metric.MetricValue
              labels := labels
              timestamp := dataBatch.Timestamp.Unix } sink = some record ∧
          (∀ k v, (heap.deref metric.Labels).commaOk k = some v → labels.commaOk k = some v) ∧
          (∀ k, (heap.deref metric.Labels).commaOk k = none →
            labels.commaOk k = (e.heap.deref s.2.Labels).commaOk k)) ∧
      (∀ s ∈ dataBatch.MetricSets, ∀ mv ∈ s.2.MetricValues,
        ∃ record ∈ e.metrics,
          Metric.Metric imp
            { name := mv.1
              value := mv.2
              labels := e.heap.deref s.2.Labels
              timestamp := dataBatch.Timestamp.Unix } sink = some record) := by
  obtain ⟨e, extra, he, hheap, hF⟩ := ExportData_spec imp sink heap dataBatch outcome halloc
  have hframe : ∀ a, a < heap.length → e.heap.deref a = heap.deref a := by
    intro a ha
    rw [hheap, Heap.deref_append_left _ _ _ ha]
  have hsets : ∀ s ∈ dataBatch.MetricSets, e.heap.deref s.2.Labels = heap.deref s.2.Labels :=
    fun s hs => hframe _ (halloc s hs).1
  refine ⟨e, he, hframe, hsets, ?_, ?_⟩
  · intro s hs metric hmetric hpresent
    have hmem : ({ name := metric.Name
                   value := metric.MetricValue
                   labels := overlay (heap.deref s.2.Labels) (heap.deref metric.Labels)
                   timestamp := dataBatch.Timestamp.Unix } : Metric) ∈
        readings imp heap dataBatch := by
      unfold readings
      rw [List.mem_flatMap]
      refine ⟨s, hs, List.mem_append_right _ ?_⟩
      unfold labeledReadings
      rw [List.mem_map]
      exact ⟨metric, List.mem_filter.mpr ⟨hmetric, by simpa using hpresent⟩, rfl⟩
    obtain ⟨record, hrec, hR⟩ := exists_record_of_mem hF _ hmem
    have hlook := overlay_commaOk (heap.deref s.2.Labels) (heap.deref metric.Labels)
      (Heap.valid_deref heap hvalid _) (Heap.valid_deref heap hvalid _)
    refine ⟨record, hrec, _, hR, ?_, ?_⟩
    · intro k v hk
      rw [hlook, hk]
    · intro k hk
      rw [hlook, hk, hsets s hs]
  · intro s hs mv hmv
    have hmem : ({ name := mv.1
                   value := mv.2
                   labels := heap.deref s.2.Labels
                   timestamp := dataBatch.Timestamp.Unix } : Metric) ∈
        readings imp heap dataBatch := by
      unfold readings
      rw [List.mem_flatMap]
      refine ⟨s, hs, List.mem_append_left _ ?_⟩
      unfold simpleReadings
      rw [List.mem_map]
      exact ⟨mv, hmv, rfl⟩
    obtain ⟨record, hrec, hR⟩ := exists_record_of_mem hF _ hmem
    rw [hsets s hs]
    exact ⟨record, hrec, hR⟩

/-- C10, at the sample batch: the labels of the metric set still hold its own
`hostname` after the export, although the labeled metric `disk` redefines
it. -/
theorem ExportData_overlay_frame_witness :
    ∃ e, sampleSink.ExportData sampleImports sampleHeap sampleBatch (HttpOutcome.response 200) =
        some e ∧
      (e.heap.deref 0).commaOk "hostname".toList = some "h-set".toList ∧
      e.metrics.map (fun record => record.IntrinsicTags.commaOk "node".toList) =
        [some "h-set".toList, some "h-own".toList, some "h-set".toList] := by
  obtain ⟨e, he, hframe, _⟩ :=
    ExportData_overlay_frame sampleImports sampleSink sampleHeap sampleBatch
      (HttpOutcome.response 200) (by decide) (by decide)
  refine ⟨e, he, ?_, ?_⟩
  · rw [hframe 0 (by decide)]
    decide
  · have h : sampleSink.ExportData sampleImports sampleHeap sampleBatch
        (HttpOutcome.response 200) = some
          (Option.get (sampleSink.ExportData sampleImports sampleHeap sampleBatch
            (HttpOutcome.response 200)) (by decide)) := by simp
    rw [h] at he
    cases he
    decide


/-! ## The transmission -/

/-- The payload loop appends, record by record, the line and a newline. -/
theorem payload_eq (metrics : List Carbon2Metric) :
    payload metrics = metrics.flatMap fun metric => metric.String ++ "\n".toList := by
  unfold payload
  rw [foldl_WriteString (fun metric : Carbon2Metric => metric.String ++ "\n".toList) metrics []]
  rfl

/-- What `ExportData` transmits is what `sendToSumoLogic` does with the records
it accumulated. -/
theorem ExportData_sent (imp : Imports) (sink : Sink) (heap : Heap) (dataBatch : DataBatch)
    (outcome : HttpOutcome) (e : Exported)
    (he : sink.ExportData imp heap dataBatch outcome = some e) :
    e.sent = sendToSumoLogic sink.url e.metrics outcome := by
  unfold Sink.ExportData at he
  split at he
  · cases he
  · cases he
    rfl

/-- C11: the payload of `sendToSumoLogic` is the concatenation, in order, of
each record's line followed by a newline, and every request it hands to the
client is a POST of that payload. A batch without metric sets is exported like
any other: `ExportData` returns with no record, builds the payload of length
zero and calls `sendToSumoLogic` with it, which hands exactly one POST, with
the empty body, to the client whenever `http.NewRequest` returns a request;
whether it does depends on the sink's url and not on the batch. -/
theorem sendToSumoLogic_payload (imp : Imports) (sink : Sink) (heap : Heap)
    (dataBatch : DataBatch) (outcome : HttpOutcome) :
    (∀ metrics : List Carbon2Metric,
      payload metrics = metrics.flatMap fun metric => metric.String ++ "\n".toList) ∧
    (∀ (url : Str) (metrics : List Carbon2Metric),
      ∀ req ∈ (sendToSumoLogic url metrics outcome).requests,
        req.method = "POST".toList ∧ req.url = url ∧ req.body = payload metrics ∧
        req.ContentType = Carbon2ContentType ∧ req.Close = true) ∧
    (∀ (url : Str) (metrics : List Carbon2Metric), outcome ≠ HttpOutcome.newRequestError →
      (sendToSumoLogic url metrics outcome).requests.length = 1) ∧
    (dataBatch.MetricSets = [] →
      ∃ e, sink.ExportData imp heap dataBatch outcome = some e ∧ e.metrics = [] ∧
        payload e.metrics = [] ∧ (payload e.metrics).length = 0 ∧
        e.sent = sendToSumoLogic sink.url [] outcome ∧
        (∀ metrics : List Carbon2Metric,
          e.sent.requests.length = (sendToSumoLogic sink.url metrics outcome).requests.length) ∧
        (outcome ≠ HttpOutcome.newRequestError →
          e.sent.requests =
            [{ method := "POST".toList
               url := sink.url
               body := []
               Close := true
               ContentType := Carbon2ContentType }])) := by
  refine ⟨payload_eq, ?_, ?_, ?_⟩
  · intro url metrics req hreq
    cases outcome with
    | newRequestError => simp [sendToSumoLogic] at hreq
    | doError =>
      simp only [sendToSumoLogic, List.mem_singleton] at hreq
      subst hreq
      exact ⟨rfl, rfl, rfl, rfl, rfl⟩
    | response StatusCode =>
      simp only [sendToSumoLogic] at hreq
      split_ifs at hreq <;>
      · simp only [List.mem_singleton] at hreq
        subst hreq
        exact ⟨rfl, rfl, rfl, rfl, rfl⟩
  · intro url metrics hne
    cases outcome with
    | newRequestError => exact absurd rfl hne
    | doError => simp [sendToSumoLogic]
    | response StatusCode =>
      simp only [sendToSumoLogic]
      split_ifs <;> rfl
  · intro hempty
    refine ⟨⟨heap, [], sendToSumoLogic sink.url [] outcome⟩, ?_, rfl, rfl, rfl, rfl, ?_, ?_⟩
    · simp only [Sink.ExportData, hempty, rangeMetricSets]
    · intro metrics
      cases outcome with
      | newRequestError => rfl
      | doError => rfl
      | response StatusCode =>
        simp only [sendToSumoLogic]
        split_ifs <;> rfl
    · intro hne
      cases outcome with
      | newRequestError => exact absurd rfl hne
      | doError => rfl
      | response StatusCode =>
        simp only [sendToSumoLogic]
        split_ifs <;> rfl

/-- C11, at the sample sink and a batch without metric sets: one POST with
the empty body, whether the response is 200 or the execution fails. -/
theorem sendToSumoLogic_payload_witness :
    (∃ e, sampleSink.ExportData sampleImports sampleHeap ⟨⟨100⟩, []⟩
        (HttpOutcome.response 200) = some e ∧ (payload e.metrics).length = 0 ∧
      e.sent.requests =
        [{ method := "POST".toList
           url := "http://collector/receiver".toList
           body := []
           Close := true
           ContentType := Carbon2ContentType }]) ∧
    payload
        [{ IntrinsicTags := [("metric".toList, "m".toList)]
           MetaTags := [("type".toList, "pod".toList)]
           Value := "5".toList
           Timestamp := 100 },
         { IntrinsicTags := [("metric".toList, "n".toList)]
           MetaTags := []
           Value := "6".toList
           Timestamp := 101 }] =
      "metric=m  type=pod 5 100\nmetric=n  6 101\n".toList := by
  obtain ⟨h1, _, _, h4⟩ :=
    sendToSumoLogic_payload sampleImports sampleSink sampleHeap ⟨⟨100⟩, []⟩
      (HttpOutcome.response 200)
  obtain ⟨e, he, _, _, hlen, _, _, hreq⟩ := h4 rfl
  refine ⟨⟨e, he, hlen, (hreq (by decide)).trans rfl⟩, ?_⟩
  rw [h1]
  decide

/-- C15: `ExportData` reaches the transmission, which ends in `glog.Fatalf`
exactly when building or executing the request fails; for every response,
whatever its status code, it returns without terminating the process, and
only logs an error when the code is not 200. -/
theorem ExportData_fatal_iff (imp : Imports) (sink : Sink) (heap : Heap)
    (dataBatch : DataBatch) (outcome : HttpOutcome) (halloc : dataBatch.Allocated heap) :
    ∃ e, sink.ExportData imp heap dataBatch outcome = some e ∧
      (e.sent.fatal = true ↔
        outcome = HttpOutcome.newRequestError ∨ outcome = HttpOutcome.doError) ∧
      (∀ StatusCode, outcome = HttpOutcome.response StatusCode →
        e.sent.fatal = false ∧ e.sent.requests.length = 1 ∧
        (e.sent.errorLogged = true ↔ StatusCode ≠ 200)) := by
  obtain ⟨e, _, he, -, -⟩ := ExportData_spec imp sink heap dataBatch outcome halloc
  have hsent := ExportData_sent imp sink heap dataBatch outcome e he
  refine ⟨e, he, ?_, ?_⟩
  · rw [hsent]
    cases outcome with
    | newRequestError => simp [sendToSumoLogic]
    | doError => simp [sendToSumoLogic]
    | response StatusCode =>
      simp only [sendToSumoLogic]
      split_ifs <;> simp
  · intro StatusCode hout
    rw [hsent, hout]
    simp only [sendToSumoLogic]
    split_ifs with h <;> simp [h]

/-- C15, at the sample batch: a response with status 503 is logged and the
export returns; a failed execution is fatal. -/
theorem ExportData_fatal_iff_witness :
    (∃ e, sampleSink.ExportData sampleImports sampleHeap sampleBatch (HttpOutcome.response 503) =
        some e ∧ e.sent.fatal = false ∧ e.sent.errorLogged = true) ∧
    (∃ e, sampleSink.ExportData sampleImports sampleHeap sampleBatch HttpOutcome.doError =
        some e ∧ e.sent.fatal = true) := by
  obtain ⟨e, he, _, h2⟩ :=
    ExportData_fatal_iff sampleImports sampleSink sampleHeap sampleBatch
      (HttpOutcome.response 503) (by decide)
  obtain ⟨e', he', h1', _⟩ :=
    ExportData_fatal_iff sampleImports sampleSink sampleHeap sampleBatch HttpOutcome.doError
      (by decide)
  exact ⟨⟨e, he, (h2 503 rfl).1, (h2 503 rfl).2.2.mpr (by decide)⟩,
    ⟨e', he', h1'.mpr (Or.inr rfl)⟩⟩


/-! ## The constructor -/

/-- The parameter loop panics when an entry has no `=`. -/
theorem rangeParam_of_entry_without_eq (entries : List Str) :
    ∀ tags : GoMap, (∃ s ∈ entries, '=' ∉ s) → rangeParam entries tags = none := by
  induction entries with
  | nil =>
    intro tags h
    obtain ⟨s, hs, -⟩ := h
    cases hs
  | cons value rest ih =>
    intro tags h
    unfold rangeParam
    split
    · rename_i key val more heq
      obtain ⟨s, hs, hno⟩ := h
      rcases List.mem_cons.mp hs with e | hmem
      · subst e
        rw [Split_of_not_mem s '=' hno] at heq
        cases heq
      · exact ih _ ⟨s, hmem, hno⟩
    · rfl

/-- The parameter loop assigns, in order, the pair of each entry that splits on
`=` into exactly a key and a value. -/
theorem rangeParam_of_pairs (entries : List Str) (pairs : List (Str × Str))
    (h : List.Forall₂ (fun s (p : Str × Str) => Split s '=' = [p.1, p.2]) entries pairs) :
    ∀ tags : GoMap, rangeParam entries tags = some (assignAll pairs tags) := by
  induction h with
  | nil => intro tags; rfl
  | cons hsp _ ih =>
    intro tags
    simp only [rangeParam, hsp]
    rw [ih]
    rfl

/-- Without a value for `dimensions` both loops are skipped. -/
theorem NewSumoLogicSink_of_no_dimensions (URL_String : URL → Str) (uri : URL)
    (h : uri.Query.Get "dimensions".toList = []) :
    NewSumoLogicSink URL_String uri =
      some
        { url := URL_String
            { Scheme := uri.Scheme, Host := uri.Host, Path := uri.Path, Query := [] }
          dimensions := []
          metadata := [] } := by
  simp only [NewSumoLogicSink, h, ne_eq, not_true_eq_false, if_false]

/-- With a value for `dimensions`, the constructor runs both loops. -/
theorem NewSumoLogicSink_of_dimensions (URL_String : URL → Str) (uri : URL)
    (h : uri.Query.Get "dimensions".toList ≠ []) :
    NewSumoLogicSink URL_String uri =
      match rangeParam (Split (uri.Query.Get "dimensions".toList) ',') [] with
      | none => none
      | some dimensions =>
        match rangeParam (Split (uri.Query.Get "metadata".toList) ',') [] with
        | none => none
        | some metadata =>
          some
            { url := URL_String
                { Scheme := uri.Scheme, Host := uri.Host, Path := uri.Path, Query := [] }
              dimensions := dimensions
              metadata := metadata } := by
  simp only [NewSumoLogicSink, h, ne_eq, not_false_eq_true, if_true]

/-- The part of C12 that holds: when both parameters are non-empty lists of
entries that split on `=` into a key and a value, the constructor returns the
sink with the two mappings of the pairs. -/
theorem NewSumoLogicSink_of_pairs (URL_String : URL → Str) (uri : URL)
    (dimensions metadata : List (Str × Str))
    (hd : uri.Query.Get "dimensions".toList ≠ [])
    (hdp : List.Forall₂ (fun s (p : Str × Str) => Split s '=' = [p.1, p.2])
      (Split (uri.Query.Get "dimensions".toList) ',') dimensions)
    (hmp : List.Forall₂ (fun s (p : Str × Str) => Split s '=' = [p.1, p.2])
      (Split (uri.Query.Get "metadata".toList) ',') metadata) :
    NewSumoLogicSink URL_String uri =
      some
        { url := URL_String
            { Scheme := uri.Scheme, Host := uri.Host, Path := uri.Path, Query := [] }
          dimensions := assignAll dimensions []
          metadata := assignAll metadata [] } := by
  rw [NewSumoLogicSink_of_dimensions URL_String uri hd, rangeParam_of_pairs _ _ hdp,
    rangeParam_of_pairs _ _ hmp]

/-- C12, the code at the failing inputs: with `metadata=a=1` and no
`dimensions` the constructor returns a sink whose metadata mapping is empty,
and with `dimensions=a=1` and no `metadata` it panics; with both given it
returns the two mappings. The metadata loop is guarded by the value of
`dimensions`. -/
theorem NewSumoLogicSink_metadata_guard :
    NewSumoLogicSink sampleURLString (sampleURI [("metadata", "a=1")]) =
      some { url := "https://collector/receiver".toList, dimensions := [], metadata := [] } ∧
    NewSumoLogicSink sampleURLString (sampleURI [("dimensions", "a=1")]) = none ∧
    NewSumoLogicSink sampleURLString (sampleURI [("dimensions", "a=1"), ("metadata", "b=2")]) =
      some
        { url := "https://collector/receiver".toList
          dimensions := [("a".toList, "1".toList)]
          metadata := [("b".toList, "2".toList)] } :=
  ⟨rfl, rfl, rfl⟩

/-- C13, the code at the failing input: with `metadata=foo` and no `dimensions`
the constructor returns a sink. With a value for `dimensions`, an entry
without `=` in either parameter makes it panic, so that no sink is
created. -/
theorem NewSumoLogicSink_malformed (URL_String : URL → Str) (uri : URL) :
    NewSumoLogicSink sampleURLString (sampleURI [("metadata", "foo")]) =
      some { url := "https://collector/receiver".toList, dimensions := [], metadata := [] } ∧
    (uri.Query.Get "dimensions".toList ≠ [] →
      ((∃ s ∈ Split (uri.Query.Get "dimensions".toList) ',', '=' ∉ s) ∨
        (∃ s ∈ Split (uri.Query.Get "metadata".toList) ',', '=' ∉ s)) →
      NewSumoLogicSink URL_String uri = none) := by
  refine ⟨rfl, ?_⟩
  intro hd hbad
  rw [NewSumoLogicSink_of_dimensions URL_String uri hd]
  rcases hbad with hbad | hbad
  · rw [rangeParam_of_entry_without_eq _ _ hbad]
  · rw [rangeParam_of_entry_without_eq _ _ hbad]
    split <;> rfl

/-- C19: when the `dimensions` parameter is absent or empty, `NewSumoLogicSink`
returns a sink whose dimensions and metadata mappings are both empty, whatever
the `metadata` parameter holds. -/
theorem NewSumoLogicSink_skips_metadata (URL_String : URL → Str) (uri : URL)
    (h : (∀ e ∈ uri.Query, e.1 ≠ "dimensions".toList) ∨
      uri.Query.Get "dimensions".toList = []) :
    ∃ sink, NewSumoLogicSink URL_String uri = some sink ∧
      sink.dimensions = [] ∧ sink.metadata = [] ∧
      sink.url = URL_String
        { Scheme := uri.Scheme, Host := uri.Host, Path := uri.Path, Query := [] } := by
  have habsent : ∀ q : Values, (∀ e ∈ q, e.1 ≠ "dimensions".toList) →
      Values.Get q "dimensions".toList = [] := by
    intro q
    induction q with
    | nil => intro _; rfl
    | cons e rest ih =>
      intro hq
      obtain ⟨k, vs⟩ := e
      have hk : k ≠ "dimensions".toList := hq (k, vs) (List.mem_cons_self _ _)
      have hrest := ih fun e he => hq e (List.mem_cons_of_mem _ he)
      simp only [Values.Get, hk, if_false]
      exact hrest
  have hget : uri.Query.Get "dimensions".toList = [] := by
    rcases h with h | h
    · exact habsent _ h
    · exact h
  exact ⟨_, NewSumoLogicSink_of_no_dimensions URL_String uri hget, rfl, rfl, rfl⟩

/-- C19, at a URI without `dimensions` whose `metadata` holds a pair and an
entry without `=`. -/
theorem NewSumoLogicSink_skips_metadata_witness :
    ∃ sink, NewSumoLogicSink sampleURLString (sampleURI [("metadata", "a=1,foo")]) = some sink ∧
      sink.dimensions = [] ∧ sink.metadata = [] := by
  obtain ⟨sink, h1, h2, h3, _⟩ :=
    NewSumoLogicSink_skips_metadata sampleURLString (sampleURI [("metadata", "a=1,foo")])
      (Or.inl (by decide))
  exact ⟨sink, h1, h2, h3⟩


/-! ## The `metric` tag of a record -/

theorem Replace_ne_nil (s : Str) (old : Char) (new : Str) (hs : s ≠ []) (hn : new ≠ []) :
    Replace s old new ≠ [] := by
  cases s with
  | nil => exact absurd rfl hs
  | cons c cs =>
    rw [Replace_cons]
    split_ifs <;> simp [hn]

theorem Join_ne_nil (e e2 : Str) (es : List Str) (sep : Str) (hsep : sep ≠ []) :
    Join (e :: e2 :: es) sep ≠ [] := by
  simp [Join, hsep]

/-- C14, as amended: the record of `Metric.Metric` has the key `metric`. When
the sink's dimensions do not define `metric`, its value is the path derived
from the metric name, and that path is non-empty exactly when the name is
non-empty or the labels hold `resourceId`; when the dimensions define
`metric`, its value is the configured one. -/
theorem Metric_metric_tag (imp : Imports) (m : Metric) (sink : Sink)
    (hv : sink.dimensions.Valid) :
    ∃ record p, m.Metric imp sink = some record ∧
      "metric".toList ∈ record.IntrinsicTags.domain ∧
      ((∀ R, m.labels.commaOk "resourceId".toList = some R →
          ∃ sect parts, Split m.name '/' = sect :: parts ∧
            p = Replace (Join (sect :: R :: parts) ".".toList) '/' ".".toList) ∧
       (m.labels.commaOk "resourceId".toList = none → p = Replace m.name '/' ".".toList)) ∧
      (sink.dimensions.commaOk "metric".toList = none →
        record.IntrinsicTags.commaOk "metric".toList = some p) ∧
      (∀ v, sink.dimensions.commaOk "metric".toList = some v →
        record.IntrinsicTags.commaOk "metric".toList = some v) ∧
      (p ≠ [] ↔ m.name ≠ [] ∨ ∃ R, m.labels.commaOk "resourceId".toList = some R) := by
  obtain ⟨p, extra, htags, ⟨hp1, hp2⟩, -⟩ := IntrinsicTags_shape imp.core m
  have hov := assignAll_commaOk sink.dimensions hv (("metric".toList, p) :: extra)
    "metric".toList
  have hm : GoMap.commaOk (("metric".toList, p) :: extra) "metric".toList = some p := by
    simp [GoMap.commaOk]
  have hrec : m.Metric imp sink = some
      { IntrinsicTags := assignAll sink.dimensions (("metric".toList, p) :: extra)
        MetaTags := assignAll sink.dimensions (m.MetaTags imp.core)
        Value := m.Value imp
        Timestamp := m.timestamp } := by
    simp only [Metric.Metric, htags]
  refine ⟨_, p, hrec, ?_, ⟨hp1, hp2⟩, ?_, ?_, ?_⟩
  · rw [GoMap.mem_domain_iff]
    show ∃ v, (assignAll sink.dimensions (("metric".toList, p) :: extra)).commaOk
      "metric".toList = some v
    rw [hov, hm]
    cases sink.dimensions.commaOk "metric".toList with
    | none => exact ⟨p, rfl⟩
    | some v => exact ⟨v, rfl⟩
  · intro hnone
    show (assignAll sink.dimensions (("metric".toList, p) :: extra)).commaOk
      "metric".toList = some p
    rw [hov, hm, hnone]
  · intro v hsome
    show (assignAll sink.dimensions (("metric".toList, p) :: extra)).commaOk
      "metric".toList = some v
    rw [hov, hsome]
  · cases hR : m.labels.commaOk "resourceId".toList with
    | none =>
      rw [hp2 hR]
      constructor
      · intro hne
        left
        intro hname
        rw [hname] at hne
        exact hne rfl
      · rintro (hname | ⟨R, hR'⟩)
        · exact Replace_ne_nil _ _ _ hname (by decide)
        · cases hR'
    | some R =>
      obtain ⟨sect, parts, -, hpe⟩ := hp1 R hR
      rw [hpe]
      constructor
      · intro _
        exact Or.inr ⟨R, rfl⟩
      · intro _
        exact Replace_ne_nil _ _ _ (Join_ne_nil _ _ _ _ (by decide)) (by decide)

/-- C14, at the reading named `cpu/usage` and the sample sink: the `metric` tag
is `cpu.usage`. -/
theorem Metric_metric_tag_witness :
    ∃ record, (sampleMetric "cpu/usage" []).Metric sampleImports sampleSink = some record ∧
      record.IntrinsicTags.commaOk "metric".toList = some "cpu.usage".toList := by
  obtain ⟨record, p, h1, _, ⟨_, hp⟩, h2, _, _⟩ :=
    Metric_metric_tag sampleImports (sampleMetric "cpu/usage" []) sampleSink (by decide)
  refine ⟨record, h1, ?_⟩
  rw [h2 (by decide), hp (by decide)]
  decide

/-- C14, the claim as stated fails: a reading with the empty name and no
`resourceId` gets the empty `metric` tag, and a sink whose dimensions define
`metric` replaces the path derived from the name. -/
theorem Metric_metric_tag_empty_or_overridden :
    (∃ record, (sampleMetric "" []).Metric sampleImports ⟨[], [], []⟩ = some record ∧
      record.IntrinsicTags.commaOk "metric".toList = some []) ∧
    (∃ record, (sampleMetric "cpu" []).Metric sampleImports
        ⟨[], [("metric".toList, "x".toList)], []⟩ = some record ∧
      record.IntrinsicTags.commaOk "metric".toList = some "x".toList) :=
  ⟨⟨_, rfl, rfl⟩, ⟨_, rfl, rfl⟩⟩


/-! ## The `type` tag without a recognized resource type -/

/-- C16, as amended: when the resource-type label is absent or not one of the
six values, `Metric.MetaTags` derives no `type` tag from it: the key `type` is
present only when an entry of the `labels` blob reads `type:v` with `v`
non-empty, and is then mapped to the `v` of the last such entry. -/
theorem MetaTags_type_of_unrecognized (core : Core) (m : Metric)
    (h : ∀ t, m.labels.commaOk core.LabelMetricSetType.Key = some t →
      t ∉ [core.MetricSetTypePodContainer, core.MetricSetTypeSystemContainer,
        core.MetricSetTypePod, core.MetricSetTypeNamespace, core.MetricSetTypeNode,
        core.MetricSetTypeCluster]) :
    (∀ v, (m.MetaTags core).commaOk "type".toList = some v ↔
      ∃ pre s post, Split (m.labels.index core.LabelLabels.Key) ',' = pre ++ s :: post ∧
        Split s ':' = ["type".toList, v] ∧ v ≠ [] ∧
        ∀ s' ∈ post, ∀ v', Split s' ':' = ["type".toList, v'] → v' = []) ∧
    ((∀ s ∈ Split (m.labels.index core.LabelLabels.Key) ',', ∀ v,
        Split s ':' = ["type".toList, v] → v = []) →
      "type".toList ∉ (m.MetaTags core).domain) := by
  have hfold : m.MetaTags core =
      (Split (m.labels.index core.LabelLabels.Key) ',').foldl Metric.MetaTags.step [] := by
    obtain ⟨hsw, hnone⟩ := MetaTags_shape core m
    cases ht : m.labels.commaOk core.LabelMetricSetType.Key with
    | none => exact hnone ht
    | some t =>
      have hn := h t ht
      simp only [List.mem_cons, List.mem_singleton, not_or, List.not_mem_nil,
        not_false_eq_true, and_true] at hn
      exact (hsw t ht).2.2.2.2.2.2 hn.1 hn.2.1 hn.2.2.1 hn.2.2.2.1 hn.2.2.2.2.1 hn.2.2.2.2.2
  have hlast : ∀ v, (m.MetaTags core).commaOk "type".toList = some v ↔
      ∃ pre s post, Split (m.labels.index core.LabelLabels.Key) ',' = pre ++ s :: post ∧
        Split s ':' = ["type".toList, v] ∧ v ≠ [] ∧
        ∀ s' ∈ post, ∀ v', Split s' ':' = ["type".toList, v'] → v' = [] := by
    intro v
    rw [hfold, MetaTags.fold_commaOk]
    simp [GoMap.commaOk]
  refine ⟨hlast, ?_⟩
  intro hno hmem
  obtain ⟨v, hv⟩ := (GoMap.mem_domain_iff _ _).mp hmem
  obtain ⟨pre, s, post, e, h1, h2, -⟩ := (hlast v).mp hv
  exact h2 (hno s (by rw [e]; simp) v h1)

/-- C16, at a reading of unknown type whose blob holds no `type` entry: no
`type` key. -/
theorem MetaTags_type_of_unrecognized_witness :
    "type".toList ∉
      ((sampleMetric "cpu" [("type", "other"), ("labels", "a:1")]).MetaTags sampleCore).domain :=
  (MetaTags_type_of_unrecognized sampleCore
    (sampleMetric "cpu" [("type", "other"), ("labels", "a:1")])
    (by
      intro t ht
      have e : some "other".toList = some t := Eq.trans (by decide) ht
      cases e
      decide)).2
    (by
      intro s hs v hv
      have hs' : s ∈ ["a:1".toList] := hs
      rw [List.mem_singleton] at hs'
      subst hs'
      have hsp : Split "a:1".toList ':' = ["a".toList, "1".toList] := by decide
      rw [hsp] at hv
      injection hv with h1 _
      exact absurd h1 (by decide))

/-- C16, the claim as stated fails: without a resource-type label, a blob with
the entry `type:x` puts the key `type` into the metadata tags. -/
theorem MetaTags_type_from_blob :
    (sampleMetric "cpu" [("labels", "type:x")]).labels.commaOk
        sampleCore.LabelMetricSetType.Key = none ∧
    "type".toList ∈ ((sampleMetric "cpu" [("labels", "type:x")]).MetaTags sampleCore).domain ∧
    ((sampleMetric "cpu" [("labels", "type:x")]).MetaTags sampleCore).commaOk "type".toList =
      some "x".toList := by
  decide

/-! ## Missing entity labels -/

/-- C17: for each of the six resource types `Metric.IntrinsicTags` returns, and
every identity tag of the type's row is present with the value of the index
expression on the entity label, which is the empty string when the label is
missing. -/
theorem IntrinsicTags_missing_labels (core : Core) (hd : core.DistinctCases) (m : Metric) :
    (∀ key, m.labels.commaOk key = none → m.labels.index key = []) ∧
    ∃ tags, m.IntrinsicTags core = some tags ∧
      (m.labels.commaOk core.LabelMetricSetType.Key = some core.MetricSetTypePodContainer →
        ∀ tag key, (tag, key) ∈ [("node".toList, core.LabelHostname.Key),
            ("namespace".toList, core.LabelNamespaceName.Key),
            ("pod".toList, core.LabelPodName.Key),
            ("container".toList, core.LabelContainerName.Key)] →
          tags.commaOk tag = some (m.labels.index key) ∧
          (m.labels.commaOk key = none → tags.commaOk tag = some [])) ∧
      (m.labels.commaOk core.LabelMetricSetType.Key = some core.MetricSetTypeSystemContainer →
        ∀ tag key, (tag, key) ∈ [("node".toList, core.LabelHostname.Key),
            ("sys-containers".toList, core.LabelContainerName.Key)] →
          tags.commaOk tag = some (m.labels.index key) ∧
          (m.labels.commaOk key = none → tags.commaOk tag = some [])) ∧
      (m.labels.commaOk core.LabelMetricSetType.Key = some core.MetricSetTypePod →
        ∀ tag key, (tag, key) ∈ [("node".toList, core.LabelHostname.Key),
            ("namespace".toList, core.LabelNamespaceName.Key),
            ("pod".toList, core.LabelPodName.Key)] →
          tags.commaOk tag = some (m.labels.index key) ∧
          (m.labels.commaOk key = none → tags.commaOk tag = some [])) ∧
      (m.labels.commaOk core.LabelMetricSetType.Key = some core.MetricSetTypeNamespace →
        ∀ tag key, (tag, key) ∈ [("namespace".toList, core.LabelNamespaceName.Key)] →
          tags.commaOk tag = some (m.labels.index key) ∧
          (m.labels.commaOk key = none → tags.commaOk tag = some [])) ∧
      (m.labels.commaOk core.LabelMetricSetType.Key = some core.MetricSetTypeNode →
        ∀ tag key, (tag, key) ∈ [("node".toList, core.LabelHostname.Key)] →
          tags.commaOk tag = some (m.labels.index key) ∧
          (m.labels.commaOk key = none → tags.commaOk tag = some [])) := by
  have hidx : ∀ key, m.labels.commaOk key = none → m.labels.index key = [] := by
    intro key hk
    simp [GoMap.index, hk]
  obtain ⟨p, extra, htags, -, hsw, -⟩ := IntrinsicTags_shape core m
  obtain ⟨n1, n2, n3, n4, n5, n6, n7, n8, n9, n10, n11, n12, n13, n14, n15⟩ :=
    Core.DistinctCases.ne core hd
  have hrow : ∀ (row : List (Str × Str)) (tag key : Str),
      (row.map Prod.fst).Nodup → "metric".toList ∉ row.map Prod.fst → (tag, key) ∈ row →
      GoMap.commaOk (("metric".toList, p) :: row.map fun e => (e.1, m.labels.index e.2)) tag =
        some (m.labels.index key) := by
    intro row tag key hnd hnm hmem
    have htag : "metric".toList ≠ tag := by
      intro e
      exact hnm (e ▸ List.mem_map_of_mem Prod.fst hmem)
    simp only [GoMap.commaOk, htag, if_false]
    clear hnm htag
    induction row with
    | nil => cases hmem
    | cons e rest ih =>
      obtain ⟨t0, k0⟩ := e
      simp only [List.map_cons, List.nodup_cons] at hnd
      rcases List.mem_cons.mp hmem with heq | hrest
      · cases heq
        simp [GoMap.commaOk]
      · have hne : t0 ≠ tag := by
          intro e
          exact hnd.1 (e ▸ List.mem_map_of_mem Prod.fst hrest)
        simp only [List.map_cons, GoMap.commaOk, hne, if_false]
        exact ih hnd.2 hrest
  refine ⟨hidx, _, htags, ?_, ?_, ?_, ?_, ?_⟩
  · intro ht tag key hmem
    rw [(hsw _ ht).1 rfl]
    have := hrow _ tag key (by simp) (by simp) hmem
    exact ⟨this, fun hk => by rw [← hidx key hk]; exact this⟩
  · intro ht tag key hmem
    rw [(hsw _ ht).2.1 n1.symm rfl]
    have := hrow _ tag key (by simp) (by simp) hmem
    exact ⟨this, fun hk => by rw [← hidx key hk]; exact this⟩
  · intro ht tag key hmem
    rw [(hsw _ ht).2.2.1 n2.symm n6.symm rfl]
    have := hrow _ tag key (by simp) (by simp) hmem
    exact ⟨this, fun hk => by rw [← hidx key hk]; exact this⟩
  · intro ht tag key hmem
    rw [(hsw _ ht).2.2.2.1 n3.symm n7.symm n10.symm rfl]
    have := hrow _ tag key (by simp) (by simp) hmem
    exact ⟨this, fun hk => by rw [← hidx key hk]; exact this⟩
  · intro ht tag key hmem
    rw [(hsw _ ht).2.2.2.2.1 n4.symm n8.symm n11.symm n13.symm rfl]
    have := hrow _ tag key (by simp) (by simp) hmem
    exact ⟨this, fun hk => by rw [← hidx key hk]; exact this⟩


/-- C17, at a pod reading without any entity label: `node`, `namespace` and
`pod` are present and empty. -/
theorem IntrinsicTags_missing_labels_witness :
    ∃ tags, (sampleMetric "cpu" [("type", "pod")]).IntrinsicTags sampleCore = some tags ∧
      tags.commaOk "node".toList = some [] ∧ tags.commaOk "namespace".toList = some [] ∧
      tags.commaOk "pod".toList = some [] := by
  obtain ⟨_, tags, h1, _, _, h2, _⟩ :=
    IntrinsicTags_missing_labels sampleCore (by decide) (sampleMetric "cpu" [("type", "pod")])
  exact ⟨tags, h1, (h2 (by decide) _ "hostname".toList (by decide)).2 (by decide),
    (h2 (by decide) _ "namespace_name".toList (by decide)).2 (by decide),
    (h2 (by decide) _ "pod_name".toList (by decide)).2 (by decide)⟩

/-! ## The sink's metadata -/

/-- The record of a reading depends on the sink through its dimensions only. -/
theorem Metric_congr (imp : Imports) (m : Metric) (sink1 sink2 : Sink)
    (h : sink1.dimensions = sink2.dimensions) : m.Metric imp sink1 = m.Metric imp sink2 := by
  simp only [Metric.Metric, h]

theorem rangeMetricValues_congr (imp : Imports) (sink1 sink2 : Sink)
    (h : sink1.dimensions = sink2.dimensions) (heap : Heap) (dataBatch : DataBatch)
    (metricSet : MetricSet) (values : List (Str × MetricValue)) :
    ∀ metrics, rangeMetricValues imp sink1 heap dataBatch metricSet values metrics =
      rangeMetricValues imp sink2 heap dataBatch metricSet values metrics := by
  induction values with
  | nil => intro metrics; rfl
  | cons e rest ih =>
    intro metrics
    obtain ⟨metricName, metricValue⟩ := e
    simp only [rangeMetricValues, Metric_congr imp _ sink1 sink2 h, ih]

theorem rangeLabeledMetrics_congr (imp : Imports) (sink1 sink2 : Sink)
    (h : sink1.dimensions = sink2.dimensions) (dataBatch : DataBatch) (metricSet : MetricSet)
    (labeled : List LabeledMetric) :
    ∀ heap metrics, rangeLabeledMetrics imp sink1 dataBatch metricSet labeled heap metrics =
      rangeLabeledMetrics imp sink2 dataBatch metricSet labeled heap metrics := by
  induction labeled with
  | nil => intro heap metrics; rfl
  | cons metric rest ih =>
    intro heap metrics
    simp only [rangeLabeledMetrics, Metric_congr imp _ sink1 sink2 h, ih]

theorem rangeMetricSets_congr (imp : Imports) (sink1 sink2 : Sink)
    (h : sink1.dimensions = sink2.dimensions) (dataBatch : DataBatch)
    (sets : List (Str × MetricSet)) :
    ∀ heap metrics, rangeMetricSets imp sink1 dataBatch sets heap metrics =
      rangeMetricSets imp sink2 dataBatch sets heap metrics := by
  induction sets with
  | nil => intro heap metrics; rfl
  | cons e rest ih =>
    intro heap metrics
    obtain ⟨name, metricSet⟩ := e
    simp only [rangeMetricSets, rangeMetricValues_congr imp sink1 sink2 h,
      rangeLabeledMetrics_congr imp sink1 sink2 h, ih]

/-- C18: two sinks with the same dimensions give the same record for every
reading, whatever their metadata mappings, and `ExportData` accumulates the
same records and leaves the same heap for both. -/
theorem Metric_ignores_metadata (imp : Imports) (m : Metric) (sink1 sink2 : Sink)
    (h : sink1.dimensions = sink2.dimensions) :
    m.Metric imp sink1 = m.Metric imp sink2 ∧
    ∀ (heap : Heap) (dataBatch : DataBatch) (outcome : HttpOutcome),
      (sink1.ExportData imp heap dataBatch outcome).map (fun e => (e.heap, e.metrics)) =
        (sink2.ExportData imp heap dataBatch outcome).map (fun e => (e.heap, e.metrics)) := by
  refine ⟨Metric_congr imp m sink1 sink2 h, ?_⟩
  intro heap dataBatch outcome
  simp only [Sink.ExportData, rangeMetricSets_congr imp sink1 sink2 h]
  cases rangeMetricSets imp sink2 dataBatch dataBatch.MetricSets heap [] with
  | none => rfl
  | some r => rfl

/-- C18, at the sample sink and the same sink with a metadata mapping. -/
theorem Metric_ignores_metadata_witness :
    (sampleMetric "cpu" [("type", "pod")]).Metric sampleImports sampleSink =
      (sampleMetric "cpu" [("type", "pod")]).Metric sampleImports
        { sampleSink with metadata := [("team".toList, "ops".toList)] } :=
  (Metric_ignores_metadata sampleImports (sampleMetric "cpu" [("type", "pod")]) sampleSink
    { sampleSink with metadata := [("team".toList, "ops".toList)] } rfl).1

/-! ## The line of a reading of another kind -/

/-- The rendered pairs of a non-empty map end with the last pair and its
space. -/
theorem flatMap_render_append_singleton (M : GoMap) (kv : Str × Str) :
    (M ++ [kv]).flatMap (fun kv => kv.1 ++ "=".toList ++ kv.2 ++ " ".toList) =
      M.flatMap (fun kv => kv.1 ++ "=".toList ++ kv.2 ++ " ".toList) ++
        (kv.1 ++ "=".toList ++ kv.2) ++ " ".toList := by
  simp [List.flatMap_append]

/-- C20: for a reading whose value kind is neither integer nor floating-point,
`Metric.Metric` returns a record with the empty value, and in whatever order
the two maps are visited the line has an empty value field: the separating
space, when there are no metadata tags, or the space after the last metadata
pair is followed by another space and the timestamp, so the line ends with two
spaces and the timestamp. -/
theorem String_of_other_kind (imp : Imports) (m : Metric) (sink : Sink)
    (h1 : m.value.ValueType ≠ imp.core.ValueInt64)
    (h2 : m.value.ValueType ≠ imp.core.ValueFloat) :
    ∃ record, m.Metric imp sink = some record ∧ record.Value = [] ∧
      record.Timestamp = m.timestamp ∧
      ∀ I M : GoMap, I.Perm record.IntrinsicTags → M.Perm record.MetaTags →
        (M = [] →
          Carbon2Metric.String { record with IntrinsicTags := I, MetaTags := M } =
            I.flatMap (fun kv => kv.1 ++ "=".toList ++ kv.2 ++ " ".toList) ++ " ".toList ++
              " ".toList ++ Sprintf_d m.timestamp) ∧
        (∀ M' kv, M = M' ++ [kv] →
          Carbon2Metric.String { record with IntrinsicTags := I, MetaTags := M } =
            I.flatMap (fun kv => kv.1 ++ "=".toList ++ kv.2 ++ " ".toList) ++ " ".toList ++
              M'.flatMap (fun kv => kv.1 ++ "=".toList ++ kv.2 ++ " ".toList) ++
              (kv.1 ++ "=".toList ++ kv.2) ++ " ".toList ++
              " ".toList ++ Sprintf_d m.timestamp) ∧
        ∃ front, Carbon2Metric.String { record with IntrinsicTags := I, MetaTags := M } =
          front ++ "  ".toList ++ Sprintf_d m.timestamp := by
  obtain ⟨record, hrec⟩ := Metric_total imp m sink
  have hval : record.Value = [] ∧ record.Timestamp = m.timestamp := by
    unfold Metric.Metric at hrec
    split at hrec
    · cases hrec
    · cases hrec
      exact ⟨by simp [Metric.Value, h1, h2], rfl⟩
  have hline : ∀ I M : GoMap,
      Carbon2Metric.String { record with IntrinsicTags := I, MetaTags := M } =
        I.flatMap (fun kv => kv.1 ++ "=".toList ++ kv.2 ++ " ".toList) ++ " ".toList ++
          M.flatMap (fun kv => kv.1 ++ "=".toList ++ kv.2 ++ " ".toList) ++ " ".toList ++
          Sprintf_d m.timestamp := by
    intro I M
    simp only [Carbon2Metric.String, foldl_WriteString, hval.1, hval.2]
    simp only [WriteString, List.nil_append, List.append_assoc]
  refine ⟨record, hrec, hval.1, hval.2, ?_⟩
  intro I M _ _
  have hM : M = [] → Carbon2Metric.String { record with IntrinsicTags := I, MetaTags := M } =
      I.flatMap (fun kv => kv.1 ++ "=".toList ++ kv.2 ++ " ".toList) ++ " ".toList ++
        " ".toList ++ Sprintf_d m.timestamp := by
    intro hnil
    rw [hline, hnil]
    simp
  have hM' : ∀ M' kv, M = M' ++ [kv] →
      Carbon2Metric.String { record with IntrinsicTags := I, MetaTags := M } =
        I.flatMap (fun kv => kv.1 ++ "=".toList ++ kv.2 ++ " ".toList) ++ " ".toList ++
          M'.flatMap (fun kv => kv.1 ++ "=".toList ++ kv.2 ++ " ".toList) ++
          (kv.1 ++ "=".toList ++ kv.2) ++ " ".toList ++
          " ".toList ++ Sprintf_d m.timestamp := by
    intro M' kv hs
    rw [hline, hs, flatMap_render_append_singleton]
    simp only [List.append_assoc]
  refine ⟨hM, hM', ?_⟩
  rcases List.eq_nil_or_concat M with hnil | ⟨M', kv, hs⟩
  · refine ⟨I.flatMap (fun kv => kv.1 ++ "=".toList ++ kv.2 ++ " ".toList), ?_⟩
    rw [hM hnil]
    simp only [List.append_assoc]
    rfl
  · refine ⟨I.flatMap (fun kv => kv.1 ++ "=".toList ++ kv.2 ++ " ".toList) ++ " ".toList ++
      M'.flatMap (fun kv => kv.1 ++ "=".toList ++ kv.2 ++ " ".toList) ++
      (kv.1 ++ "=".toList ++ kv.2), ?_⟩
    rw [hM' M' kv (by rw [hs]; simp)]
    simp only [List.append_assoc]
    rfl

/-- C20, at a reading of another kind with a pod type and the sample sink. -/
theorem String_of_other_kind_witness :
    ∃ record, Metric.Metric sampleImports
        ⟨"cpu".toList, ⟨0, ⟨0⟩, 2⟩, [("type".toList, "pod".toList)], 100⟩ sampleSink =
          some record ∧
      record.String =
        "metric=cpu node= namespace= pod= cluster=c0  type=pod cluster=c0  100".toList := by
  obtain ⟨record, h, _, _, _⟩ :=
    String_of_other_kind sampleImports
      ⟨"cpu".toList, ⟨0, ⟨0⟩, 2⟩, [("type".toList, "pod".toList)], 100⟩ sampleSink
      (by decide) (by decide)
  refine ⟨record, h, ?_⟩
  have e : some record = some (Option.get (Metric.Metric sampleImports
      ⟨"cpu".toList, ⟨0, ⟨0⟩, 2⟩, [("type".toList, "pod".toList)], 100⟩ sampleSink)
      (by decide)) := by
    rw [← h]
    simp
  cases e
  decide

end Sumologic
